
import Mathlib

/-!
Verification of the SCM file-change tree widget (`ScmTreeWidget`,
`packages/scm/src/browser/scm-tree-label-provider.ts`).

The embedding translates the tree-building algorithm (`buildFileChangeTree`,
`toFileChangeFolderNode`, `toFileChangeNode`, `toGroupNode`, `createTree`,
`doCompareNodes`), the linear navigation cursor (`moveToNextFileNode`,
`moveToPreviousFileNode`), the resource opening logic (`openResource`) and the
persisted view-mode logic (`storeState` / `restoreState`) into Lean.

General recursion in the source (the `buildFileChangeTree` /
`toFileChangeFolderNode` mutual recursion, which does not terminate on all
inputs) is embedded with an explicit fuel parameter; `none` means the fuel ran
out.  External collaborators (the Theia `URI` library, the generic tree model's
node storage and selection, `String.prototype.localeCompare`, the editor
manager) are modelled by small explicit functions or function parameters, as
described in the doc comment of each such definition.
-/

set_option maxHeartbeats 1000000

namespace ScmTree

/-- `ScmResourceDecorations` from `scm-provider.ts`: optional display color,
one-letter status glyph and tooltip of a resource. -/
structure ScmResourceDecorations where
  color : Option String
  letter : Option String
  tooltip : Option String
deriving DecidableEq, Repr

/-- An `ScmResource`: a changed item with its source location (stringified URI)
and the id of its owning group (`resource.group.id` in the source).  Only the
fields the tree builder reads are kept. -/
structure ScmResource where
  sourceUri : String
  groupId : String
  decorations : Option ScmResourceDecorations
deriving DecidableEq, Repr

/-- One element of the `resourcePaths` array built in `toGroupNode`: the
resource together with its path split into segments relative to the
repository root (`pathParts`). -/
structure ResourcePath where
  resource : ScmResource
  pathParts : List String
deriving DecidableEq, Repr

/-- What the generic tree model's `getNode(id)` returns about a node of the
previous tree: whether it satisfies `ExpandableTreeNode.is` / its `expanded`
flag, and whether it satisfies `SelectableTreeNode.is` / its `selected` flag.
This models the external node storage consulted during reconciliation. -/
structure OldNodeInfo where
  expandable : Bool
  expanded : Bool
  selectable : Bool
  selected : Bool
deriving DecidableEq, Repr

/-- The `defaultExpansion` property of `ScmTreeProps`. -/
inductive DefaultExpansion where
  | collapsed
  | expanded
deriving DecidableEq, Repr

/-- `ScmTreeProps`: the optional `defaultExpansion` and `nestingThreshold`
widget properties. -/
structure ScmTreeProps where
  defaultExpansion : Option DefaultExpansion
  nestingThreshold : Option Nat
deriving DecidableEq, Repr

/-- The context a rebuild runs in: widget props plus the external tree model's
`getNode` lookup into the previous tree (modelled as a function from node id
to the observable state of the old node, if one exists). -/
structure BuildCtx where
  props : ScmTreeProps
  getNode : String → Option OldNodeInfo

/-- The `viewMode` property: `'tree' | 'flat'`. -/
inductive ViewMode where
  | tree
  | flat
deriving DecidableEq, Repr

/-- `this.props.defaultExpansion ? (this.props.defaultExpansion === 'expanded') : true`
from `toFileChangeFolderNode`. -/
def defaultExpansionOf (props : ScmTreeProps) : Bool :=
  match props.defaultExpansion with
  | some DefaultExpansion.expanded => true
  | some DefaultExpansion.collapsed => false
  | none => true

/-- `this.props.nestingThreshold || 1` from `buildFileChangeTree` (JS falsy:
a missing or zero threshold falls back to 1). -/
def nestingThresholdOf (props : ScmTreeProps) : Nat :=
  match props.nestingThreshold with
  | some n => if n = 0 then 1 else n
  | none => 1

/-- Lexicographic comparison of two lists of naturals; a strict prefix sorts
first.  Used to model the primary and case-level passes of
`String.prototype.localeCompare`. -/
def cmpNatList : List Nat → List Nat → Ordering
  | [], [] => Ordering.eq
  | [], _ :: _ => Ordering.lt
  | _ :: _, [] => Ordering.gt
  | a :: as, b :: bs => (compare a b).then (cmpNatList as bs)

/-- The case-insensitive key of a string: the code points of its lowercased
characters. -/
def foldKey (s : String) : List Nat :=
  s.data.map (fun c => c.toLower.toNat)

/-- The case key of a string: 0 for a non-uppercase character, 1 for an
uppercase one (lowercase sorts before uppercase on an otherwise equal
string, as in the default locale). -/
def caseKey (s : String) : List Nat :=
  s.data.map (fun c => if c.isUpper then 1 else 0)

/-- Model of the external `String.prototype.localeCompare` used by
`doCompareNodes`: a case-aware lexicographic comparison, implemented as a
primary case-insensitive pass with a case-level tie break.  Returns a
negative, zero or positive integer like the JS builtin. -/
def localeCompare (a b : String) : Int :=
  match (cmpNatList (foldKey a) (foldKey b)).then (cmpNatList (caseKey a) (caseKey b)) with
  | Ordering.lt => -1
  | Ordering.eq => 0
  | Ordering.gt => 1

/-- The tree nodes built by the widget.  The source discriminates
structurally (`FileChangeFolderNode.is` / `FileChangeNode.is`); here the two
shapes are the two constructors.  A folder carries `id`, `groupId`, `path`
(the relative path it displays), `sourceUri`, the `expanded` and `selected`
flags and its children; a leaf carries `id`, `sourceUri`, the decoration
snapshot and its `selected` flag. -/
inductive FileChangeTreeNode where
  | folder (id groupId path sourceUri : String) (expanded selected : Bool)
      (children : List FileChangeTreeNode)
  | leaf (id sourceUri : String) (decorations : Option ScmResourceDecorations)
      (selected : Bool)

/-- `FileChangeFolderNode.is` on a built node: true exactly for the folder
shape. -/
def FileChangeTreeNode.isFolder : FileChangeTreeNode → Bool
  | FileChangeTreeNode.folder _ _ _ _ _ _ _ => true
  | FileChangeTreeNode.leaf _ _ _ _ => false

/-- The `sourceUri` of a built node (present on both shapes). -/
def FileChangeTreeNode.uri : FileChangeTreeNode → String
  | FileChangeTreeNode.folder _ _ _ u _ _ _ => u
  | FileChangeTreeNode.leaf _ u _ _ => u

/-- `doCompareNodes`: folders sort before leaves; two nodes of the same kind
compare by `localeCompare` of their `sourceUri`s. -/
def doCompareNodes (a b : FileChangeTreeNode) : Int :=
  if a.isFolder && !b.isFolder then -1
  else if b.isFolder && !a.isFolder then 1
  else localeCompare a.uri b.uri

/-- The ordering relation `a` sorts no later than `b` under `doCompareNodes`
(the comparator passed to `result.sort` in `buildFileChangeTree`). -/
def nodeLEr (a b : FileChangeTreeNode) : Prop :=
  doCompareNodes a b ≤ 0

instance : DecidableRel nodeLEr := fun a b => by
  unfold nodeLEr
  infer_instance

/-- `result.sort(this.compareNodes)`: the stable comparator sort applied to
the node list before `buildFileChangeTree` returns it.  JS `Array.sort` is a
stable sort by the comparator; it is modelled by a stable insertion sort. -/
def sortNodes (l : List FileChangeTreeNode) : List FileChangeTreeNode :=
  List.insertionSort nodeLEr l

/-- `resources[i]`: list indexing of the `resourcePaths` array.  An
out-of-range access is given a dummy resource with empty `pathParts`; the
source would throw there, and all theorems keep indices in range. -/
def getRes (res : List ResourcePath) (i : Nat) : ResourcePath :=
  res.getD i ⟨⟨"", "", none⟩, []⟩

/-- The inner scan of `buildFileChangeTree` that finds the end of the run of
resources sharing `pathParts[level]` with the first resource of the run
(`while (index < end) { if (resources[index].pathParts[level] !== ...) break; index++ }`),
written with the structural counter `k = e - i`. -/
def runEndGo (res : List ResourcePath) (level : Nat) (seg : Option String) :
    Nat → Nat → Nat → Nat
  | 0, i, _ => i
  | k + 1, i, e =>
    if i < e then
      if (getRes res i).pathParts.get? level = seg then
        runEndGo res level seg k (i + 1) e
      else i
    else i

/-- The index one past the run that starts at `i - 1`: the first index in
`[i, e)` whose segment at `level` differs from `seg`, or `e`. -/
def runEnd (res : List ResourcePath) (level : Nat) (seg : Option String)
    (i e : Nat) : Nat :=
  runEndGo res level seg (e - i) i e

/-- The `thisLevel` extension scan of `buildFileChangeTree`
(`while (thisLevel < firstFileParts.length - 1 && thisLevel < lastFileParts.length - 1 && firstFileParts[thisLevel] === lastFileParts[thisLevel]) thisLevel++`),
written with the structural counter `k = firstParts.length - t`. -/
def extendLevelGo (firstParts lastParts : List String) : Nat → Nat → Nat
  | 0, t => t
  | k + 1, t =>
    if t < firstParts.length - 1 ∧ t < lastParts.length - 1 ∧
        firstParts.get? t = lastParts.get? t then
      extendLevelGo firstParts lastParts k (t + 1)
    else t

/-- The folder boundary `thisLevel` computed for a promoted run, starting
from `t = level + 1`. -/
def extendLevel (firstParts lastParts : List String) (t : Nat) : Nat :=
  extendLevelGo firstParts lastParts (firstParts.length - t) t

/-- Model of the external Theia `URI#resolve` used in
`toFileChangeFolderNode` (`new URI(parentPath).resolve(nodeRelativePath)`):
appends the relative path to the parent location. -/
def uriResolve (base rel : String) : String :=
  if rel = "" then base else base ++ "/" ++ rel

/-- `SelectableTreeNode.is(oldNode) && oldNode.selected` for the previous
node stored under `id`, used by both `toFileChangeNode` and
`toFileChangeFolderNode`. -/
def reconSelected (ctx : BuildCtx) (id : String) : Bool :=
  match ctx.getNode id with
  | some o => o.selectable && o.selected
  | none => false

/-- `ExpandableTreeNode.is(oldNode) ? oldNode.expanded : defaultExpansion`
from `toFileChangeFolderNode`. -/
def reconExpanded (ctx : BuildCtx) (id : String) : Bool :=
  match ctx.getNode id with
  | some o => if o.expandable then o.expanded else defaultExpansionOf ctx.props
  | none => defaultExpansionOf ctx.props

/-- `toFileChangeNode`: builds the leaf node for a resource, with id
`resource.group.id + ':' + resource.sourceUri`, a snapshot of the
decorations, and the reconciled `selected` flag.  (The side effect on the
global selection service is outside the tree structure and not modelled.) -/
def mkFileChangeNode (ctx : BuildCtx) (r : ScmResource) : FileChangeTreeNode :=
  FileChangeTreeNode.leaf (r.groupId ++ ":" ++ r.sourceUri) r.sourceUri
    r.decorations (reconSelected ctx (r.groupId ++ ":" ++ r.sourceUri))

/-- The non-recursive part of `toFileChangeFolderNode`: the folder node for
relative path `rel` under parent location `puri` in group `gid`, given its
already-built (sorted) children.  Its `sourceUri` resolves `rel` against the
parent location, its id is `groupId + ':' + sourceUri`, and its `expanded` /
`selected` flags are reconciled against the previous tree. -/
def mkFolderNode (ctx : BuildCtx) (gid puri rel : String)
    (children : List FileChangeTreeNode) : FileChangeTreeNode :=
  FileChangeTreeNode.folder (gid ++ ":" ++ uriResolve puri rel) gid rel
    (uriResolve puri rel) (reconExpanded ctx (gid ++ ":" ++ uriResolve puri rel))
    (reconSelected ctx (gid ++ ":" ++ uriResolve puri rel)) children

/-- The leaves emitted for an inlined below-threshold run
(`for (let i = folderStart; i < folderEnd; i++) result.push(this.toFileChangeNode(...))`):
one leaf per resource at indices `s, s+1, …, s+n-1`. -/
def leavesOfRange (ctx : BuildCtx) (res : List ResourcePath) (s n : Nat) :
    List FileChangeTreeNode :=
  (List.range n).map fun k => mkFileChangeNode ctx (getRes res (s + k)).resource

/-- The main loop of `buildFileChangeTree` on the index range `[s, e)` at
segment depth `level`, producing the unsorted node list.  `gid` is the owning
group's id and `puri` the parent node's location (the group's `rootUri` or
the enclosing folder's `sourceUri`).  The mutual recursion with
`toFileChangeFolderNode` is embedded with the `fuel` counter: `none` means
the fuel ran out (the source recursion does not terminate on all inputs). -/
def buildLoop : Nat → BuildCtx → List ResourcePath → Nat → Nat → Nat →
    String → String → Option (List FileChangeTreeNode)
  | 0, _, _, _, _, _, _, _ => none
  | fuel + 1, ctx, res, s, e, level, gid, puri =>
    if s < e then
      let first := getRes res s
      if level + 1 = first.pathParts.length then
        (buildLoop fuel ctx res (s + 1) e level gid puri).map
          fun rest => mkFileChangeNode ctx first.resource :: rest
      else
        let folderEnd := runEnd res level (first.pathParts.get? level) (s + 1) e
        if folderEnd - s < nestingThresholdOf ctx.props then
          (buildLoop fuel ctx res folderEnd e level gid puri).map
            fun rest => leavesOfRange ctx res s (folderEnd - s) ++ rest
        else
          let lastParts := (getRes res (folderEnd - 1)).pathParts
          let thisLevel := extendLevel first.pathParts lastParts (level + 1)
          let rel := String.intercalate "/"
            ((first.pathParts.drop level).take (thisLevel - level))
          match buildLoop fuel ctx res s folderEnd thisLevel gid (uriResolve puri rel) with
          | none => none
          | some ch =>
            match buildLoop fuel ctx res folderEnd e level gid puri with
            | none => none
            | some rest => some (mkFolderNode ctx gid puri rel (sortNodes ch) :: rest)
    else some []

/-- `buildFileChangeTree`: the loop above followed by
`result.sort(this.compareNodes)`. -/
def buildFileChangeTree (fuel : Nat) (ctx : BuildCtx) (res : List ResourcePath)
    (s e level : Nat) (gid puri : String) : Option (List FileChangeTreeNode) :=
  (buildLoop fuel ctx res s e level gid puri).map sortNodes

/-- Character-list prefix test (model of string `startsWith`). -/
def charsPrefix : List Char → List Char → Bool
  | [], _ => true
  | _ :: _, [] => false
  | a :: as, b :: bs => a = b && charsPrefix as bs

/-- Model of the external Theia `URI#relative` used in `toGroupNode`
(`new URI(rootUri).relative(resource.sourceUri)`): returns the path of the
target relative to the base when the target lies under the base, and nothing
otherwise. -/
def uriRelative (base target : String) : Option String :=
  if target = base then some ""
  else if charsPrefix (base ++ "/").data target.data then
    some (target.drop (base.length + 1))
  else none

/-- Model of the JS `String.prototype.split('/')` applied to the relative
path in `toGroupNode`: splits at every `'/'`; the empty string yields one
empty segment, as in JS. -/
def splitSlashGo : List Char → List Char → List String
  | [], acc => [String.mk acc.reverse]
  | c :: cs, acc =>
    if c = '/' then String.mk acc.reverse :: splitSlashGo cs []
    else splitSlashGo cs (c :: acc)

/-- `split('/')` on a string. -/
def splitSlash (s : String) : List String :=
  splitSlashGo s.data []

/-- The `pathParts` computed in `toGroupNode`:
`relativePath ? relativePath.toString().split('/') : []`. -/
def pathPartsOf (rootUri : String) (r : ScmResource) : List String :=
  match uriRelative rootUri r.sourceUri with
  | some rel => splitSlash rel
  | none => []

/-- `ScmResourceGroup`: the group id, the `hideWhenEmpty` flag and the
resource list supplied by the provider. -/
structure ScmResourceGroup where
  id : String
  hideWhenEmpty : Bool
  resources : List ScmResource
deriving Repr

/-- A built `FileChangeGroupNode`: id and `groupId` are the group's id, the
`expanded` flag, and the ordered children. -/
structure FileChangeGroupNode where
  id : String
  groupId : String
  expanded : Bool
  children : List FileChangeTreeNode

/-- `toGroupNode`: builds the group node.  In `flat` mode every resource maps
to a leaf; in `tree` mode, if the provider has a truthy `rootUri` the
children come from `buildFileChangeTree` over the `resourcePaths` (otherwise
they stay `[]`).  The group node is always created with `expanded: true`.
`none` only when the tree build runs out of fuel. -/
def toGroupNode (fuel : Nat) (ctx : BuildCtx) (viewMode : ViewMode)
    (rootUri : Option String) (group : ScmResourceGroup) :
    Option FileChangeGroupNode :=
  match viewMode with
  | ViewMode.flat =>
    some ⟨group.id, group.id, true, group.resources.map (mkFileChangeNode ctx)⟩
  | ViewMode.tree =>
    match rootUri with
    | some root =>
      if root ≠ "" then
        let resourcePaths := group.resources.map fun r => ⟨r, pathPartsOf root r⟩
        (buildFileChangeTree fuel ctx resourcePaths 0 group.resources.length 0
            group.id root).map
          fun ch => ⟨group.id, group.id, true, ch⟩
      else some ⟨group.id, group.id, true, []⟩
    | none => some ⟨group.id, group.id, true, []⟩

/-- The provider data consumed by `createTree`: `rootUri` and the group
list. -/
structure ScmProvider where
  rootUri : Option String
  groups : List ScmResourceGroup

/-- The built `FileChangeGroupRoot`. -/
structure FileChangeGroupRoot where
  rootUri : Option String
  children : List FileChangeGroupNode

/-- The `.map(group => this.toGroupNode(group, root))` of `createTree` over
the filtered group list, collecting the fuel-limited results. -/
def createTreeChildren (fuel : Nat) (ctx : BuildCtx) (viewMode : ViewMode)
    (rootUri : Option String) : List ScmResourceGroup →
    Option (List FileChangeGroupNode)
  | [] => some []
  | g :: gs =>
    match toGroupNode fuel ctx viewMode rootUri g with
    | none => none
    | some gn => (createTreeChildren fuel ctx viewMode rootUri gs).map
        fun gns => gn :: gns

/-- `createTree`: filters out empty `hideWhenEmpty` groups
(`!!group.resources.length || !group.hideWhenEmpty`) and maps the rest
through `toGroupNode`. -/
def createTree (fuel : Nat) (ctx : BuildCtx) (viewMode : ViewMode)
    (provider : ScmProvider) : Option FileChangeGroupRoot :=
  (createTreeChildren fuel ctx viewMode provider.rootUri
    (provider.groups.filter fun g => g.resources.length ≠ 0 || !g.hideWhenEmpty)).map
    fun children => ⟨provider.rootUri, children⟩

/-! ### The linear navigation cursor

The generic tree model exposes the currently visible selectable nodes in
order; group headers are not selectable, so the visible selectable order
consists of folder and file nodes only.  `NavState` models that order as a
list of node kinds plus the index of the selected node; `getNextSelectableNode`
/ `getPrevSelectableNode` / `selectNode` model the corresponding `TreeModel`
operations consumed by the widget. -/

/-- The kind of a visible selectable node: a file (leaf) node or a folder
node. -/
inductive NavKind where
  | file
  | folder
deriving DecidableEq, Repr

/-- The visible selectable node order of the tree model plus the current
selection. -/
structure NavState where
  nodes : List NavKind
  selected : Option Nat
deriving DecidableEq, Repr

/-- Model of `TreeModel.getNextSelectableNode`: the node after the selected
one in visible order, if any. -/
def getNextSelectableNode (st : NavState) : Option Nat :=
  match st.selected with
  | some i => if i + 1 < st.nodes.length then some (i + 1) else none
  | none => none

/-- Model of `TreeModel.getPrevSelectableNode`: the node before the selected
one in visible order, if any. -/
def getPrevSelectableNode (st : NavState) : Option Nat :=
  match st.selected with
  | some i => if i = 0 then none else some (i - 1)
  | none => none

/-- Model of `TreeModel.selectNode`. -/
def selectNode (st : NavState) (j : Nat) : NavState :=
  ⟨st.nodes, some j⟩

/-- The loop of `moveToNextFileNode`, with the structural counter `k`
(`st.nodes.length` always suffices, since each step moves the selection one
position forward). -/
def moveNextGo : Nat → NavState → Option Nat × NavState
  | 0, st => (none, st)
  | k + 1, st =>
    match getNextSelectableNode st with
    | none => (none, st)
    | some j =>
      if st.nodes.getD j NavKind.folder = NavKind.file then
        (some j, selectNode st j)
      else moveNextGo k (selectNode st j)

/-- `moveToNextFileNode`: walks forward through the visible selectable
nodes, selecting each one, until a file node is found (returned and
selected) or the order is exhausted (returns nothing). -/
def moveToNextFileNode (st : NavState) : Option Nat × NavState :=
  moveNextGo st.nodes.length st

/-- The loop of `moveToPreviousFileNode`, with the structural counter `k`. -/
def movePrevGo : Nat → NavState → Option Nat × NavState
  | 0, st => (none, st)
  | k + 1, st =>
    match getPrevSelectableNode st with
    | none => (none, st)
    | some j =>
      if st.nodes.getD j NavKind.folder = NavKind.file then
        (some j, selectNode st j)
      else movePrevGo k (selectNode st j)

/-- `moveToPreviousFileNode`: the backward walk. -/
def moveToPreviousFileNode (st : NavState) : Option Nat × NavState :=
  movePrevGo st.nodes.length st

/-! ### Opening a resource -/

/-- What `openResource` reads of an editor widget from the editor manager:
the path of its resource URI (`widget.getResourceUri()?.path.toString()`,
absent when there is no resource URI), the stringified resource URI, and the
scheme of the editor URI compared against `DiffUris.DIFF_SCHEME`. -/
structure EditorWidgetM where
  resourcePath : Option String
  resourceUriStr : Option String
  isDiffScheme : Bool
deriving DecidableEq, Repr

/-- A resource as consumed by `openResource`: the stringified source URI,
its path component (`resource.sourceUri.path.toString()`), and the outcome
of the external `resource.open()` call (which may reject). -/
structure OpenableResource where
  sourceUriStr : String
  sourceUriPath : String
  openResult : Except String Unit
deriving Repr

/-- The editor scan inside `openResource`: walks `editorManager.all`,
preferring a diff editor on the same resource path, falling back to a
standalone editor on the same path, and also returning a diff editor whose
resource URI equals the resource's source URI. -/
def scanEditors (resourcePath sourceUriStr : String) :
    List EditorWidgetM → Option EditorWidgetM → Option EditorWidgetM
  | [], standalone => standalone
  | w :: ws, standalone =>
    if w.resourcePath = some resourcePath ∧ w.isDiffScheme then some w
    else if w.isDiffScheme ∧ w.resourceUriStr = some sourceUriStr then some w
    else
      scanEditors resourcePath sourceUriStr ws
        (if w.resourcePath = some resourcePath then some w else standalone)

/-- `openResource`: awaits `resource.open()`; a rejection is caught
(and logged) and yields no editor handle.  On success the editor manager's
widgets are scanned for a matching editor. -/
def openResource (r : OpenableResource) (editors : List EditorWidgetM) :
    Option EditorWidgetM :=
  match r.openResult with
  | Except.error _ => none
  | Except.ok _ => scanEditors r.sourceUriPath r.sourceUriStr editors none

/-- `openResource` threaded through the widget's navigation state: the
function body reads the editor manager but never touches the tree or the
selection, so the state passes through unchanged. -/
def openResourceSt (st : NavState) (r : OpenableResource)
    (editors : List EditorWidgetM) : Option EditorWidgetM × NavState :=
  (openResource r editors, st)

/-! ### Persisted state -/

/-- The serialized form of the view mode stored by `storeState`
(`mode: this._viewMode`). -/
def serializeViewMode : ViewMode → String
  | ViewMode.tree => "tree"
  | ViewMode.flat => "flat"

/-- The persisted snapshot `{ mode, tree }`; a malformed or missing `mode`
is any value other than the string `"tree"` or `"flat"`, modelled as an
optional arbitrary string.  The nested generic tree state is opaque. -/
structure PersistedState (τ : Type) where
  mode : Option String
  tree : τ
deriving Repr

/-- `storeState()`: snapshots the view mode and the superclass tree state. -/
def storeState {τ : Type} (viewMode : ViewMode) (superState : τ) :
    PersistedState τ :=
  ⟨some (serializeViewMode viewMode), superState⟩

/-- The view mode assigned by `restoreState`:
`this._viewMode = mode === 'tree' ? 'tree' : 'flat'`. -/
def restoredViewMode (mode : Option String) : ViewMode :=
  if mode = some "tree" then ViewMode.tree else ViewMode.flat

/-! ### Auxiliary definitions for the specifications and proofs: comparison
keys, the run and boundary abbreviations, reachable sibling lists, the
claim-shaped ordering and reconciliation predicates, the sortedness
precondition, and the concrete data the claim theorems evaluate. -/

/-- The composite (primary, case-level) comparison underlying
`localeCompare`. -/
def cmpKey (a b : String) : Ordering :=
  (cmpNatList (foldKey a) (foldKey b)).then (cmpNatList (caseKey a) (caseKey b))

/-- The guard of the `thisLevel` extension loop. -/
def extendGuard (firstParts lastParts : List String) (t : Nat) : Prop :=
  t < firstParts.length - 1 ∧ t < lastParts.length - 1 ∧
    firstParts.get? t = lastParts.get? t

instance (f l : List String) (t : Nat) : Decidable (extendGuard f l t) := by
  unfold extendGuard
  infer_instance

/-- `folderEnd`: the end of the run starting at `s`. -/
def fEnd (res : List ResourcePath) (s e level : Nat) : Nat :=
  runEnd res level ((getRes res s).pathParts.get? level) (s + 1) e

/-- `thisLevel`: the folder boundary for the promoted run starting at `s`. -/
def tLevel (res : List ResourcePath) (s e level : Nat) : Nat :=
  extendLevel (getRes res s).pathParts
    (getRes res (fEnd res s e level - 1)).pathParts (level + 1)

/-- `nodeRelativePath`: the displayed relative path of the promoted folder. -/
def relOf (res : List ResourcePath) (s e level : Nat) : String :=
  String.intercalate "/"
    (((getRes res s).pathParts.drop level).take (tLevel res s e level - level))

/-- The children of a built node (`[]` for a leaf). -/
def childrenOf : FileChangeTreeNode → List FileChangeTreeNode
  | FileChangeTreeNode.folder _ _ _ _ _ _ ch => ch
  | FileChangeTreeNode.leaf _ _ _ _ => []

/-- `ChildListOf l m` holds when `m` is a sibling list reachable from the
sibling list `l`: either `l` itself, or the children of some folder node
reachable below `l`. -/
inductive ChildListOf : List FileChangeTreeNode → List FileChangeTreeNode → Prop
  | refl (l : List FileChangeTreeNode) : ChildListOf l l
  | nest {l m ch : List FileChangeTreeNode} {id gid path uri : String}
      {exp sel : Bool} :
      FileChangeTreeNode.folder id gid path uri exp sel ch ∈ l →
      ChildListOf ch m → ChildListOf l m

/-- The claimed ordering of two siblings `a` before `b`: a folder never
follows a leaf, and two nodes of the same kind are in ascending
`localeCompare` order of their `sourceUri`s. -/
def siblingsOrdered (a b : FileChangeTreeNode) : Prop :=
  (a.isFolder = false → b.isFolder = false) ∧
  (a.isFolder = b.isFolder → localeCompare a.uri b.uri ≤ 0)

instance : DecidableRel siblingsOrdered := fun a b => by
  unfold siblingsOrdered
  infer_instance

/-- A build context with default props and an empty previous tree. -/
def ctxNone : BuildCtx := ⟨⟨none, none⟩, fun _ => none⟩

/-- Resource `a/x.txt` of the worked example. -/
def rAX : ScmResource := ⟨"file:///repo/a/x.txt", "g", none⟩

/-- Resource `a/y.txt` of the worked example. -/
def rAY : ScmResource := ⟨"file:///repo/a/y.txt", "g", none⟩

/-- Resource `b.txt` of the worked example. -/
def rB : ScmResource := ⟨"file:///repo/b.txt", "g", none⟩

/-- The group holding `a/x.txt`, `a/y.txt`, `b.txt`. -/
def demoGroup : ScmResourceGroup := ⟨"g", false, [rAX, rAY, rB]⟩

/-- The children the worked example is expected to build in `tree` mode. -/
def demoChildren : List FileChangeTreeNode :=
  [FileChangeTreeNode.folder "g:file:///repo/a" "g" "a" "file:///repo/a" true false
    [FileChangeTreeNode.leaf "g:file:///repo/a/x.txt" "file:///repo/a/x.txt" none false,
     FileChangeTreeNode.leaf "g:file:///repo/a/y.txt" "file:///repo/a/y.txt" none false],
   FileChangeTreeNode.leaf "g:file:///repo/b.txt" "file:///repo/b.txt" none false]

/-- The group node the worked example builds. -/
def demoGroupNode : FileChangeGroupNode := ⟨"g", "g", true, demoChildren⟩

/-- The provider of the worked example. -/
def demoProvider : ScmProvider := ⟨some "file:///repo", [demoGroup]⟩

/-- The root the worked example builds. -/
def demoRoot : FileChangeGroupRoot := ⟨some "file:///repo", [demoGroupNode]⟩

/-- A group whose provider hands the resources in descending URI order. -/
def unsortedGroup : ScmResourceGroup :=
  ⟨"g", false, [⟨"file:///repo/b.txt", "g", none⟩, ⟨"file:///repo/a.txt", "g", none⟩]⟩

/-- The reconciliation rule for one built node: a folder's `expanded` flag is
the previous node's when one exists under the same identity key and was
expandable, and the configured default otherwise; the `selected` flag of a
folder or leaf is the previous node's when one exists and was selectable,
and false otherwise. -/
def reconOk (ctx : BuildCtx) : FileChangeTreeNode → Prop
  | FileChangeTreeNode.folder id _ _ _ exp sel _ =>
    exp = reconExpanded ctx id ∧ sel = reconSelected ctx id
  | FileChangeTreeNode.leaf id _ _ sel => sel = reconSelected ctx id

instance (ctx : BuildCtx) : DecidablePred (reconOk ctx) := fun n => by
  cases n <;> (unfold reconOk; infer_instance)

/-- A previous tree in which the group node "g" itself was collapsed. -/
def ctxPrevGroupCollapsed : BuildCtx :=
  ⟨⟨none, none⟩, fun id =>
    if id = "g" then some ⟨true, false, false, false⟩ else none⟩

/-- The displayed relative path of a built node (empty for a leaf). -/
def FileChangeTreeNode.relPath : FileChangeTreeNode → String
  | FileChangeTreeNode.folder _ _ p _ _ _ _ => p
  | FileChangeTreeNode.leaf _ _ _ _ => ""

/-- The `resourcePaths` array of the worked example. -/
def demoRes : List ResourcePath :=
  [⟨rAX, ["a", "x.txt"]⟩, ⟨rAY, ["a", "y.txt"]⟩, ⟨rB, ["b.txt"]⟩]

/-- A context whose props raise the nesting threshold to 2. -/
def ctxT2 : BuildCtx := ⟨⟨none, some 2⟩, fun _ => none⟩

/-- A group holding only `a/x.txt`. -/
def axOnlyGroup : ScmResourceGroup := ⟨"g", false, [rAX]⟩

/-- A group holding only the top-level file `x.txt`. -/
def xOnlyGroup : ScmResourceGroup := ⟨"g", false, [⟨"file:///repo/x.txt", "g", none⟩]⟩

/-- The character-code key used to compare two segment strings. -/
def strKey (s : String) : List Nat :=
  s.data.map Char.toNat

/-- Strict comparison of two segment strings by character codes. -/
def strLtB (a b : String) : Bool :=
  match cmpNatList (strKey a) (strKey b) with
  | Ordering.lt => true
  | Ordering.eq => false
  | Ordering.gt => false

/-- Lexicographic order on segment sequences, a strict prefix first: the
order in which the spec assumes the resource list is pre-sorted. -/
def partsLE : List String → List String → Bool
  | [], _ => true
  | _ :: _, [] => false
  | a :: as, b :: bs =>
    if strLtB a b then true else if strLtB b a then false else partsLE as bs

/-- The largest `pathParts` length in the resource list. -/
def maxLenOf (res : List ResourcePath) : Nat :=
  res.foldr (fun r acc => max r.pathParts.length acc) 0

/-- The precondition under which the build terminates on the range `[s, e)`
at depth `level`: every resource in the range has more than `level`
segments, the range is sorted by `partsLE`, and all resources in the range
agree on their first `level` segments. -/
def BuildPre (res : List ResourcePath) (s e level : Nat) : Prop :=
  (∀ i, s ≤ i → i < e → level < (getRes res i).pathParts.length) ∧
  (∀ i j, s ≤ i → i ≤ j → j < e →
    partsLE (getRes res i).pathParts (getRes res j).pathParts = true) ∧
  (∀ i j k, s ≤ i → i < e → s ≤ j → j < e → k < level →
    (getRes res i).pathParts.get? k = (getRes res j).pathParts.get? k)

/-- An unsorted list with nonempty `pathParts` on which the build recursion
never terminates: the run `a/b/x, a, a/b/y` is promoted with boundary level
2, but the middle resource has only one segment. -/
def badRes : List ResourcePath :=
  [⟨⟨"file:///r/a/b/x", "g", none⟩, ["a", "b", "x"]⟩,
   ⟨⟨"file:///r/a", "g", none⟩, ["a"]⟩,
   ⟨⟨"file:///r/a/b/y", "g", none⟩, ["a", "b", "y"]⟩]

/-! ### Properties of the node comparator -/

theorem cmpNatList_eq_iff : ∀ a b : List Nat, cmpNatList a b = Ordering.eq ↔ a = b := by
  intro a
  induction a with
  | nil => intro b; cases b <;> simp [cmpNatList]
  | cons x xs ih =>
    intro b
    cases b with
    | nil => simp [cmpNatList]
    | cons y ys =>
      simp only [cmpNatList]
      rcases h : compare x y with hlt | heq | hgt
      · simp only [Ordering.then]
        rw [Nat.compare_eq_lt] at h
        constructor
        · intro hh; exact absurd hh (by simp)
        · intro hh
          injection hh with h1 h2
          omega
      · rw [Nat.compare_eq_eq] at h
        subst h
        simp [Ordering.then, ih ys]
      · simp only [Ordering.then]
        rw [Nat.compare_eq_gt] at h
        constructor
        · intro hh; exact absurd hh (by simp)
        · intro hh
          injection hh with h1 h2
          omega

theorem cmpNatList_swap : ∀ a b : List Nat, cmpNatList b a = (cmpNatList a b).swap := by
  intro a
  induction a with
  | nil => intro b; cases b <;> simp [cmpNatList, Ordering.swap]
  | cons x xs ih =>
    intro b
    cases b with
    | nil => simp [cmpNatList, Ordering.swap]
    | cons y ys =>
      simp only [cmpNatList]
      rw [ih ys, ← Nat.compare_swap]
      rcases h : compare x y with h' | h' | h' <;>
        simp [Ordering.swap, Ordering.then]

theorem cmpNatList_lt_trans : ∀ a b c : List Nat,
    cmpNatList a b = Ordering.lt → cmpNatList b c = Ordering.lt →
    cmpNatList a c = Ordering.lt := by
  intro a
  induction a with
  | nil =>
    intro b c hab hbc
    cases b with
    | nil => simpa [cmpNatList] using hbc
    | cons y ys =>
      cases c with
      | nil => simp [cmpNatList] at hbc
      | cons z zs => simp [cmpNatList]
  | cons x xs ih =>
    intro b c hab hbc
    cases b with
    | nil => simp [cmpNatList] at hab
    | cons y ys =>
      cases c with
      | nil => simp [cmpNatList] at hbc
      | cons z zs =>
        simp only [cmpNatList] at hab hbc ⊢
        rcases hxy : compare x y with h1 | h1 | h1 <;>
          rcases hyz : compare y z with h2 | h2 | h2 <;>
            rw [hxy] at hab <;> rw [hyz] at hbc <;>
              simp only [Ordering.then] at hab hbc
        · rw [Nat.compare_eq_lt] at hxy hyz
          have : compare x z = Ordering.lt := Nat.compare_eq_lt.2 (lt_trans hxy hyz)
          simp [this, Ordering.then]
        · rw [Nat.compare_eq_lt] at hxy
          rw [Nat.compare_eq_eq] at hyz
          subst hyz
          simp [Nat.compare_eq_lt.2 hxy, Ordering.then]
        · exact absurd hbc (by simp)
        · rw [Nat.compare_eq_eq] at hxy
          subst hxy
          rw [Nat.compare_eq_lt] at hyz
          simp [Nat.compare_eq_lt.2 hyz, Ordering.then]
        · rw [Nat.compare_eq_eq] at hxy hyz
          subst hxy; subst hyz
          simp [Nat.compare_eq_eq.2 rfl, Ordering.then]
          exact ih ys zs hab hbc
        · exact absurd hbc (by simp)
        · exact absurd hab (by simp)
        · exact absurd hab (by simp)
        · exact absurd hab (by simp)

theorem localeCompare_eq_cmpKey (a b : String) :
    localeCompare a b = match cmpKey a b with
      | Ordering.lt => -1
      | Ordering.eq => 0
      | Ordering.gt => 1 := rfl

theorem cmpKey_swap (a b : String) : cmpKey b a = (cmpKey a b).swap := by
  unfold cmpKey
  rw [cmpNatList_swap (foldKey a), cmpNatList_swap (caseKey a)]
  rcases cmpNatList (foldKey a) (foldKey b) with _ | _ | _ <;>
    simp [Ordering.then, Ordering.swap]

theorem cmpKey_eq_keys {a b : String} (h : cmpKey a b = Ordering.eq) :
    foldKey a = foldKey b ∧ caseKey a = caseKey b := by
  unfold cmpKey at h
  rcases hf : cmpNatList (foldKey a) (foldKey b) with h1 | h1 | h1 <;>
    rw [hf] at h <;> simp [Ordering.then] at h
  exact ⟨(cmpNatList_eq_iff _ _).1 hf, (cmpNatList_eq_iff _ _).1 h⟩

theorem cmpKey_lt_trans {a b c : String} (hab : cmpKey a b = Ordering.lt)
    (hbc : cmpKey b c = Ordering.lt) : cmpKey a c = Ordering.lt := by
  unfold cmpKey at hab hbc ⊢
  rcases hf1 : cmpNatList (foldKey a) (foldKey b) with h1 | h1 | h1 <;>
    rw [hf1] at hab <;> simp only [Ordering.then] at hab
  · rcases hf2 : cmpNatList (foldKey b) (foldKey c) with h2 | h2 | h2 <;>
      rw [hf2] at hbc <;> simp only [Ordering.then] at hbc
    · rw [cmpNatList_lt_trans _ _ _ hf1 hf2]; simp [Ordering.then]
    · have := (cmpNatList_eq_iff _ _).1 hf2
      rw [← this, hf1]; simp [Ordering.then]
    · exact absurd hbc (by simp)
  · have heq := (cmpNatList_eq_iff _ _).1 hf1
    rcases hf2 : cmpNatList (foldKey b) (foldKey c) with h2 | h2 | h2 <;>
      rw [hf2] at hbc <;> simp only [Ordering.then] at hbc
    · rw [heq, hf2]; simp [Ordering.then]
    · have heq2 := (cmpNatList_eq_iff _ _).1 hf2
      rw [heq, hf2]
      simp only [Ordering.then]
      have : caseKey b = caseKey c → cmpNatList (caseKey a) (caseKey c) = Ordering.lt := by
        intro hc; rw [← hc]; exact hab
      rcases hc2 : cmpNatList (caseKey b) (caseKey c) with h3 | h3 | h3 <;>
        rw [hc2] at hbc
      · exact cmpNatList_lt_trans _ _ _ hab hc2
      · exact this ((cmpNatList_eq_iff _ _).1 hc2)
      · exact absurd hbc (by simp)
    · exact absurd hbc (by simp)
  · exact absurd hab (by simp)

theorem cmpKey_ngt_trans {a b c : String} (h1 : cmpKey a b ≠ Ordering.gt)
    (h2 : cmpKey b c ≠ Ordering.gt) : cmpKey a c ≠ Ordering.gt := by
  rcases e1 : cmpKey a b with _ | _ | _
  · rcases e2 : cmpKey b c with _ | _ | _
    · rw [cmpKey_lt_trans e1 e2]
      simp
    · obtain ⟨hf, hc⟩ := cmpKey_eq_keys e2
      have hac : cmpKey a c = Ordering.lt := by
        unfold cmpKey at e1 ⊢
        rw [← hf, ← hc]
        exact e1
      rw [hac]
      simp
    · exact absurd e2 h2
  · obtain ⟨hf, hc⟩ := cmpKey_eq_keys e1
    have hac : cmpKey a c = cmpKey b c := by
      unfold cmpKey
      rw [hf, hc]
    rw [hac]
    exact h2
  · exact absurd e1 h1

theorem localeCompare_le_zero_iff (a b : String) :
    localeCompare a b ≤ 0 ↔ cmpKey a b ≠ Ordering.gt := by
  rw [localeCompare_eq_cmpKey]
  rcases h : cmpKey a b with _ | _ | _ <;> decide

theorem localeCompare_le_zero_trans {a b c : String}
    (hab : localeCompare a b ≤ 0) (hbc : localeCompare b c ≤ 0) :
    localeCompare a c ≤ 0 := by
  rw [localeCompare_le_zero_iff] at hab hbc ⊢
  exact cmpKey_ngt_trans hab hbc

theorem localeCompare_le_zero_total (a b : String) :
    localeCompare a b ≤ 0 ∨ localeCompare b a ≤ 0 := by
  rw [localeCompare_le_zero_iff, localeCompare_le_zero_iff, cmpKey_swap a b]
  rcases cmpKey a b with _ | _ | _ <;> simp [Ordering.swap]

theorem nodeLEr_trans : ∀ a b c : FileChangeTreeNode,
    nodeLEr a b → nodeLEr b c → nodeLEr a c := by
  intro a b c hab hbc
  cases a <;> cases b <;> cases c <;>
    simp [nodeLEr, doCompareNodes, FileChangeTreeNode.isFolder,
      FileChangeTreeNode.uri] at hab hbc ⊢ <;>
    first
      | omega
      | exact localeCompare_le_zero_trans hab hbc

theorem nodeLEr_total : ∀ a b : FileChangeTreeNode, nodeLEr a b ∨ nodeLEr b a := by
  intro a b
  cases a <;> cases b <;>
    simp [nodeLEr, doCompareNodes, FileChangeTreeNode.isFolder,
      FileChangeTreeNode.uri] <;>
    exact localeCompare_le_zero_total _ _

instance : IsTrans FileChangeTreeNode nodeLEr := ⟨nodeLEr_trans⟩

instance : IsTotal FileChangeTreeNode nodeLEr := ⟨nodeLEr_total⟩

theorem sortNodes_sorted (l : List FileChangeTreeNode) :
    List.Sorted nodeLEr (sortNodes l) :=
  List.sorted_insertionSort nodeLEr l

theorem sortNodes_perm (l : List FileChangeTreeNode) :
    (sortNodes l).Perm l :=
  List.perm_insertionSort nodeLEr l

theorem mem_sortNodes {l : List FileChangeTreeNode} {n : FileChangeTreeNode} :
    n ∈ sortNodes l ↔ n ∈ l :=
  (sortNodes_perm l).mem_iff

/-! ### Properties of the run scan and the folder-boundary scan -/

theorem runEndGo_ge (res : List ResourcePath) (level : Nat) (seg : Option String) :
    ∀ k i e, i ≤ runEndGo res level seg k i e := by
  intro k
  induction k with
  | zero => intro i e; simp [runEndGo]
  | succ k ih =>
    intro i e
    simp only [runEndGo]
    by_cases h1 : i < e
    · rw [if_pos h1]
      by_cases h2 : (getRes res i).pathParts.get? level = seg
      · rw [if_pos h2]
        exact le_trans (Nat.le_succ i) (ih (i + 1) e)
      · rw [if_neg h2]
    · rw [if_neg h1]

theorem runEndGo_le (res : List ResourcePath) (level : Nat) (seg : Option String) :
    ∀ k i e, i ≤ e → runEndGo res level seg k i e ≤ e := by
  intro k
  induction k with
  | zero => intro i e h; simpa [runEndGo] using h
  | succ k ih =>
    intro i e h
    simp only [runEndGo]
    by_cases h1 : i < e
    · rw [if_pos h1]
      by_cases h2 : (getRes res i).pathParts.get? level = seg
      · rw [if_pos h2]
        exact ih (i + 1) e h1
      · rw [if_neg h2]
        exact h
    · rw [if_neg h1]
      exact h

theorem runEndGo_mem (res : List ResourcePath) (level : Nat) (seg : Option String) :
    ∀ k i e, ∀ j, i ≤ j → j < runEndGo res level seg k i e →
      (getRes res j).pathParts.get? level = seg := by
  intro k
  induction k with
  | zero => intro i e j hij hlt; simp [runEndGo] at hlt; omega
  | succ k ih =>
    intro i e j hij hlt
    simp only [runEndGo] at hlt
    by_cases h1 : i < e
    · rw [if_pos h1] at hlt
      by_cases h2 : (getRes res i).pathParts.get? level = seg
      · rw [if_pos h2] at hlt
        rcases Nat.eq_or_lt_of_le hij with rfl | hij'
        · exact h2
        · exact ih (i + 1) e j hij' hlt
      · rw [if_neg h2] at hlt
        omega
    · rw [if_neg h1] at hlt
      omega

theorem runEndGo_stop (res : List ResourcePath) (level : Nat) (seg : Option String) :
    ∀ k i e, e - i ≤ k → runEndGo res level seg k i e < e →
      ¬ (getRes res (runEndGo res level seg k i e)).pathParts.get? level = seg := by
  intro k
  induction k with
  | zero => intro i e hk hlt; simp [runEndGo] at hlt ⊢; omega
  | succ k ih =>
    intro i e hk hlt
    simp only [runEndGo] at hlt ⊢
    by_cases h1 : i < e
    · rw [if_pos h1] at hlt ⊢
      by_cases h2 : (getRes res i).pathParts.get? level = seg
      · rw [if_pos h2] at hlt ⊢
        exact ih (i + 1) e (by omega) hlt
      · rw [if_neg h2] at hlt ⊢
        exact h2
    · rw [if_neg h1] at hlt
      omega

theorem runEnd_ge (res : List ResourcePath) (level : Nat) (seg : Option String)
    (i e : Nat) : i ≤ runEnd res level seg i e :=
  runEndGo_ge res level seg (e - i) i e

theorem runEnd_le (res : List ResourcePath) (level : Nat) (seg : Option String)
    (i e : Nat) (h : i ≤ e) : runEnd res level seg i e ≤ e :=
  runEndGo_le res level seg (e - i) i e h

theorem runEnd_mem (res : List ResourcePath) (level : Nat) (seg : Option String)
    (i e : Nat) : ∀ j, i ≤ j → j < runEnd res level seg i e →
      (getRes res j).pathParts.get? level = seg :=
  runEndGo_mem res level seg (e - i) i e

theorem runEnd_stop (res : List ResourcePath) (level : Nat) (seg : Option String)
    (i e : Nat) (h : runEnd res level seg i e < e) :
    ¬ (getRes res (runEnd res level seg i e)).pathParts.get? level = seg :=
  runEndGo_stop res level seg (e - i) i e (le_refl _) h

theorem extendLevelGo_ge (f l : List String) :
    ∀ k t, t ≤ extendLevelGo f l k t := by
  intro k
  induction k with
  | zero => intro t; simp [extendLevelGo]
  | succ k ih =>
    intro t
    simp only [extendLevelGo]
    by_cases h : t < f.length - 1 ∧ t < l.length - 1 ∧ f.get? t = l.get? t
    · rw [if_pos h]
      exact le_trans (Nat.le_succ t) (ih (t + 1))
    · rw [if_neg h]

theorem extendLevelGo_agrees (f l : List String) :
    ∀ k t j, t ≤ j → j < extendLevelGo f l k t → extendGuard f l j := by
  intro k
  induction k with
  | zero => intro t j h1 h2; simp [extendLevelGo] at h2; omega
  | succ k ih =>
    intro t j h1 h2
    simp only [extendLevelGo] at h2
    by_cases h : t < f.length - 1 ∧ t < l.length - 1 ∧ f.get? t = l.get? t
    · rw [if_pos h] at h2
      rcases Nat.eq_or_lt_of_le h1 with rfl | h1'
      · exact h
      · exact ih (t + 1) j h1' h2
    · rw [if_neg h] at h2
      omega

theorem extendLevelGo_stop (f l : List String) :
    ∀ k t, f.length - t ≤ k → ¬ extendGuard f l (extendLevelGo f l k t) := by
  intro k
  induction k with
  | zero =>
    intro t hk
    simp only [extendLevelGo]
    unfold extendGuard
    omega
  | succ k ih =>
    intro t hk
    simp only [extendLevelGo]
    by_cases h : t < f.length - 1 ∧ t < l.length - 1 ∧ f.get? t = l.get? t
    · rw [if_pos h]
      exact ih (t + 1) (by omega)
    · rw [if_neg h]
      exact h

theorem extendLevel_ge (f l : List String) (t : Nat) : t ≤ extendLevel f l t :=
  extendLevelGo_ge f l (f.length - t) t

theorem extendLevel_agrees (f l : List String) (t : Nat) :
    ∀ j, t ≤ j → j < extendLevel f l t → extendGuard f l j :=
  extendLevelGo_agrees f l (f.length - t) t

theorem extendLevel_stop (f l : List String) (t : Nat) :
    ¬ extendGuard f l (extendLevel f l t) :=
  extendLevelGo_stop f l (f.length - t) t (le_refl _)

/-- `thisLevel` is the greatest level at or above its start up to which the
guard holds at every intermediate position: the scan is greedy and stops at
the first first/last disagreement (or filename bound). -/
theorem extendLevel_greatest (f l : List String) (t m : Nat) (_h1 : t ≤ m)
    (h2 : ∀ j, t ≤ j → j < m → extendGuard f l j) : m ≤ extendLevel f l t := by
  by_contra hlt
  push_neg at hlt
  exact extendLevel_stop f l t
    (h2 (extendLevel f l t) (extendLevel_ge f l t) hlt)

/-! ### Unfolding lemmas and fuel monotonicity for the build loop -/

theorem buildLoop_base (f : Nat) (ctx : BuildCtx) (res : List ResourcePath)
    (s e level : Nat) (gid puri : String) (h : ¬ s < e) :
    buildLoop (f + 1) ctx res s e level gid puri = some [] := by
  simp only [buildLoop]
  rw [if_neg h]

theorem buildLoop_leaf_step (f : Nat) (ctx : BuildCtx) (res : List ResourcePath)
    (s e level : Nat) (gid puri : String) (h1 : s < e)
    (h2 : level + 1 = (getRes res s).pathParts.length) :
    buildLoop (f + 1) ctx res s e level gid puri =
      (buildLoop f ctx res (s + 1) e level gid puri).map
        (fun rest => mkFileChangeNode ctx (getRes res s).resource :: rest) := by
  simp only [buildLoop]
  rw [if_pos h1, if_pos h2]

theorem buildLoop_inline_step (f : Nat) (ctx : BuildCtx) (res : List ResourcePath)
    (s e level : Nat) (gid puri : String) (h1 : s < e)
    (h2 : ¬ level + 1 = (getRes res s).pathParts.length)
    (h3 : fEnd res s e level - s < nestingThresholdOf ctx.props) :
    buildLoop (f + 1) ctx res s e level gid puri =
      (buildLoop f ctx res (fEnd res s e level) e level gid puri).map
        (fun rest => leavesOfRange ctx res s (fEnd res s e level - s) ++ rest) := by
  unfold fEnd at h3 ⊢
  simp only [buildLoop]
  rw [if_pos h1, if_neg h2, if_pos h3]

theorem buildLoop_folder_step (f : Nat) (ctx : BuildCtx) (res : List ResourcePath)
    (s e level : Nat) (gid puri : String) (h1 : s < e)
    (h2 : ¬ level + 1 = (getRes res s).pathParts.length)
    (h3 : ¬ fEnd res s e level - s < nestingThresholdOf ctx.props) :
    buildLoop (f + 1) ctx res s e level gid puri =
      match buildLoop f ctx res s (fEnd res s e level) (tLevel res s e level) gid
          (uriResolve puri (relOf res s e level)) with
      | none => none
      | some ch =>
        match buildLoop f ctx res (fEnd res s e level) e level gid puri with
        | none => none
        | some rest =>
          some (mkFolderNode ctx gid puri (relOf res s e level) (sortNodes ch) :: rest) := by
  unfold fEnd at h3
  unfold relOf tLevel fEnd
  simp only [buildLoop]
  rw [if_pos h1, if_neg h2, if_neg h3]

theorem buildLoop_mono : ∀ (f f' : Nat) (ctx : BuildCtx) (res : List ResourcePath)
    (s e level : Nat) (gid puri : String) (l : List FileChangeTreeNode),
    f ≤ f' →
    buildLoop f ctx res s e level gid puri = some l →
    buildLoop f' ctx res s e level gid puri = some l := by
  intro f
  induction f with
  | zero =>
    intro f' ctx res s e level gid puri l _ h
    simp [buildLoop] at h
  | succ f ih =>
    intro f' ctx res s e level gid puri l hle h
    obtain ⟨f'', rfl⟩ : ∃ f'', f' = f'' + 1 := ⟨f' - 1, by omega⟩
    have hf : f ≤ f'' := by omega
    by_cases hse : s < e
    · by_cases hlv : level + 1 = (getRes res s).pathParts.length
      · rw [buildLoop_leaf_step f ctx res s e level gid puri hse hlv] at h
        rw [buildLoop_leaf_step f'' ctx res s e level gid puri hse hlv]
        rcases hmap : buildLoop f ctx res (s + 1) e level gid puri with _ | rest
        · rw [hmap] at h
          simp at h
        · rw [hmap] at h
          rw [ih f'' ctx res (s + 1) e level gid puri rest hf hmap]
          exact h
      · by_cases hth : fEnd res s e level - s < nestingThresholdOf ctx.props
        · rw [buildLoop_inline_step f ctx res s e level gid puri hse hlv hth] at h
          rw [buildLoop_inline_step f'' ctx res s e level gid puri hse hlv hth]
          rcases hmap : buildLoop f ctx res (fEnd res s e level) e level gid puri
            with _ | rest
          · rw [hmap] at h
            simp at h
          · rw [hmap] at h
            rw [ih f'' ctx res (fEnd res s e level) e level gid puri rest hf hmap]
            exact h
        · rw [buildLoop_folder_step f ctx res s e level gid puri hse hlv hth] at h
          rw [buildLoop_folder_step f'' ctx res s e level gid puri hse hlv hth]
          rcases hch : buildLoop f ctx res s (fEnd res s e level) (tLevel res s e level)
              gid (uriResolve puri (relOf res s e level)) with _ | ch
          · rw [hch] at h
            simp at h
          · rw [hch] at h
            rcases hrest : buildLoop f ctx res (fEnd res s e level) e level gid puri
              with _ | rest
            · rw [hrest] at h
              simp at h
            · rw [hrest] at h
              rw [ih f'' ctx res s (fEnd res s e level) (tLevel res s e level) gid
                (uriResolve puri (relOf res s e level)) ch hf hch]
              rw [ih f'' ctx res (fEnd res s e level) e level gid puri rest hf hrest]
              exact h
    · rw [buildLoop_base f ctx res s e level gid puri hse] at h
      rw [buildLoop_base f'' ctx res s e level gid puri hse]
      exact h

/-! ### Reachable sibling lists and a generic property of all built nodes -/

theorem childListOf_nil {m : List FileChangeTreeNode}
    (h : ChildListOf [] m) : m = [] := by
  cases h with
  | refl => rfl
  | nest hmem _ => exact absurd hmem (List.not_mem_nil _)

/-- Every node of every list produced by `buildLoop` satisfies `P`, provided
`P` holds of every reconciled leaf and of every reconciled folder whose
(sorted) children all satisfy `P`. -/
theorem buildLoop_forall (ctx : BuildCtx) (res : List ResourcePath) (gid : String)
    (P : FileChangeTreeNode → Prop)
    (hleaf : ∀ r : ScmResource, P (mkFileChangeNode ctx r))
    (hfolder : ∀ puri rel ch, List.Pairwise nodeLEr ch → (∀ c ∈ ch, P c) →
      P (mkFolderNode ctx gid puri rel ch)) :
    ∀ (f : Nat) (s e level : Nat) (puri : String) (l : List FileChangeTreeNode),
      buildLoop f ctx res s e level gid puri = some l → ∀ n ∈ l, P n := by
  intro f
  induction f with
  | zero =>
    intro s e level puri l h
    simp [buildLoop] at h
  | succ f ih =>
    intro s e level puri l h n hn
    by_cases hse : s < e
    · by_cases hlv : level + 1 = (getRes res s).pathParts.length
      · rw [buildLoop_leaf_step f ctx res s e level gid puri hse hlv] at h
        rcases hmap : buildLoop f ctx res (s + 1) e level gid puri with _ | rest
        · rw [hmap] at h
          simp at h
        · rw [hmap] at h
          simp only [Option.map_some'] at h
          injection h with h
          subst h
          rcases List.mem_cons.1 hn with rfl | hn
          · exact hleaf _
          · exact ih (s + 1) e level puri rest hmap n hn
      · by_cases hth : fEnd res s e level - s < nestingThresholdOf ctx.props
        · rw [buildLoop_inline_step f ctx res s e level gid puri hse hlv hth] at h
          rcases hmap : buildLoop f ctx res (fEnd res s e level) e level gid puri
            with _ | rest
          · rw [hmap] at h
            simp at h
          · rw [hmap] at h
            simp only [Option.map_some'] at h
            injection h with h
            subst h
            rcases List.mem_append.1 hn with hn | hn
            · simp only [leavesOfRange] at hn
              obtain ⟨k, _, rfl⟩ := List.mem_map.1 hn
              exact hleaf _
            · exact ih (fEnd res s e level) e level puri rest hmap n hn
        · rw [buildLoop_folder_step f ctx res s e level gid puri hse hlv hth] at h
          rcases hch : buildLoop f ctx res s (fEnd res s e level) (tLevel res s e level)
              gid (uriResolve puri (relOf res s e level)) with _ | ch
          · rw [hch] at h
            simp at h
          · rw [hch] at h
            rcases hrest : buildLoop f ctx res (fEnd res s e level) e level gid puri
              with _ | rest
            · rw [hrest] at h
              simp at h
            · rw [hrest] at h
              simp only [] at h
              injection h with h
              subst h
              rcases List.mem_cons.1 hn with rfl | hn
              · refine hfolder puri (relOf res s e level) (sortNodes ch)
                  (sortNodes_sorted ch) ?_
                intro c hc
                exact ih s (fEnd res s e level) (tLevel res s e level)
                  (uriResolve puri (relOf res s e level)) ch hch c (mem_sortNodes.1 hc)
              · exact ih (fEnd res s e level) e level puri rest hrest n hn
    · rw [buildLoop_base f ctx res s e level gid puri hse] at h
      injection h with h
      subst h
      exact absurd hn (List.not_mem_nil n)

/-! ### Sibling-ordering lemmas -/

theorem nodeLEr_imp_siblingsOrdered {a b : FileChangeTreeNode}
    (h : nodeLEr a b) : siblingsOrdered a b := by
  unfold nodeLEr doCompareNodes at h
  unfold siblingsOrdered
  cases a <;> cases b <;>
    simp [FileChangeTreeNode.isFolder, FileChangeTreeNode.uri] at h ⊢ <;>
    exact h

theorem pairwise_siblingsOrdered_of_sorted {l : List FileChangeTreeNode}
    (h : List.Pairwise nodeLEr l) : List.Pairwise siblingsOrdered l :=
  h.imp fun hab => nodeLEr_imp_siblingsOrdered hab

/-- Every sibling list reachable inside any node built by `buildLoop` is
pairwise ordered. -/
theorem buildLoop_descendants_sorted (ctx : BuildCtx) (res : List ResourcePath)
    (gid : String) (f s e level : Nat) (puri : String)
    (l : List FileChangeTreeNode)
    (h : buildLoop f ctx res s e level gid puri = some l) :
    ∀ n ∈ l, ∀ m, ChildListOf (childrenOf n) m → List.Pairwise siblingsOrdered m := by
  refine buildLoop_forall ctx res gid
    (fun n => ∀ m, ChildListOf (childrenOf n) m → List.Pairwise siblingsOrdered m)
    ?_ ?_ f s e level puri l h
  · intro r m hm
    have hm' : ChildListOf ([] : List FileChangeTreeNode) m := by
      simpa [mkFileChangeNode, childrenOf] using hm
    rw [childListOf_nil hm']
    exact List.Pairwise.nil
  · intro puri' rel ch hsort hall m hm
    simp only [mkFolderNode, childrenOf] at hm
    cases hm with
    | refl => exact pairwise_siblingsOrdered_of_sorted hsort
    | nest hmem hrest =>
      exact hall _ hmem _ hrest

/-! ### C1 and C2 -/

/-- C1 (confirmed): for resources at `a/x.txt`, `a/y.txt`, `b.txt` with
nesting threshold 1, building the group's children in `tree` mode yields
exactly one folder node with relative path `a` holding the two leaves
`x.txt`, `y.txt` in that order, followed by the leaf for `b.txt`, with the
folder ordered before the leaf. -/
theorem c1_tree_mode_worked_example :
    toGroupNode 5 ctxNone ViewMode.tree (some "file:///repo") demoGroup =
      some demoGroupNode := rfl

/-- Group-level version: in `tree` mode, every sibling list reachable in a
rebuilt group node — its own children and the children of every folder
below them — is pairwise ordered. -/
theorem toGroupNode_tree_sorted (fuel : Nat) (ctx : BuildCtx)
    (rootUri : Option String) (group : ScmResourceGroup)
    (gn : FileChangeGroupNode)
    (h : toGroupNode fuel ctx ViewMode.tree rootUri group = some gn) :
    ∀ m, ChildListOf gn.children m → List.Pairwise siblingsOrdered m := by
  intro m hm
  simp only [toGroupNode] at h
  rcases rootUri with _ | root
  · simp only [] at h
    injection h with h
    subst h
    simp only [] at hm
    rw [childListOf_nil hm]
    exact List.Pairwise.nil
  · simp only [] at h
    by_cases hroot : root ≠ ""
    · rw [if_pos hroot] at h
      simp only [buildFileChangeTree] at h
      rcases hb : buildLoop fuel ctx (group.resources.map fun r => ⟨r, pathPartsOf root r⟩)
          0 group.resources.length 0 group.id root with _ | out
      · rw [hb] at h
        simp at h
      · rw [hb] at h
        simp only [Option.map_some'] at h
        injection h with h
        subst h
        simp only [] at hm
        cases hm with
        | refl => exact pairwise_siblingsOrdered_of_sorted (sortNodes_sorted out)
        | nest hmem hrest =>
          exact buildLoop_descendants_sorted ctx _ group.id fuel 0
            group.resources.length 0 root out hb _ (mem_sortNodes.1 hmem) m hrest
    · rw [if_neg hroot] at h
      injection h with h
      subst h
      rw [childListOf_nil hm]
      exact List.Pairwise.nil

/-- Every group node of a built root comes from `toGroupNode` on one of the
provider's groups. -/
theorem createTreeChildren_mem (fuel : Nat) (ctx : BuildCtx) (vm : ViewMode)
    (rootUri : Option String) : ∀ (gs : List ScmResourceGroup)
    (gns : List FileChangeGroupNode),
    createTreeChildren fuel ctx vm rootUri gs = some gns →
    ∀ gn ∈ gns, ∃ g ∈ gs, toGroupNode fuel ctx vm rootUri g = some gn := by
  intro gs
  induction gs with
  | nil =>
    intro gns h gn hgn
    injection h with h
    subst h
    exact absurd hgn (List.not_mem_nil gn)
  | cons g gs ih =>
    intro gns h gn hgn
    simp only [createTreeChildren] at h
    rcases hg : toGroupNode fuel ctx vm rootUri g with _ | gn0
    · rw [hg] at h
      simp at h
    · rw [hg] at h
      simp only [] at h
      rcases hrest : createTreeChildren fuel ctx vm rootUri gs with _ | gns0
      · rw [hrest] at h
        simp at h
      · rw [hrest] at h
        simp only [Option.map_some'] at h
        injection h with h
        subst h
        rcases List.mem_cons.1 hgn with rfl | hgn
        · exact ⟨g, List.mem_cons_self g gs, hg⟩
        · obtain ⟨g', hg', hg2⟩ := ih gns0 hrest gn hgn
          exact ⟨g', List.mem_cons_of_mem g hg', hg2⟩

/-- C2 (corrected, tree mode): in every tree rebuilt by `createTree` in
`tree` view mode, every sibling list of Folder/Leaf nodes — each group
node's children and the children of every folder below them — is pairwise
ordered: folders before leaves, and same-kind siblings in ascending
`localeCompare` order of `sourceUri`. -/
theorem c2_tree_mode_siblings_sorted (fuel : Nat) (ctx : BuildCtx)
    (provider : ScmProvider) (root : FileChangeGroupRoot)
    (h : createTree fuel ctx ViewMode.tree provider = some root) :
    ∀ gn ∈ root.children, ∀ m, ChildListOf gn.children m →
      List.Pairwise siblingsOrdered m := by
  intro gn hgn m hm
  simp only [createTree] at h
  rcases hc : createTreeChildren fuel ctx ViewMode.tree provider.rootUri
      (provider.groups.filter fun g => g.resources.length ≠ 0 || !g.hideWhenEmpty)
    with _ | gns
  · rw [hc] at h
    simp at h
  · rw [hc] at h
    simp only [Option.map_some'] at h
    injection h with h
    subst h
    simp only [] at hgn
    obtain ⟨g, _, hg⟩ := createTreeChildren_mem fuel ctx ViewMode.tree
      provider.rootUri _ gns hc gn hgn
    exact toGroupNode_tree_sorted fuel ctx provider.rootUri g gn hg m hm

/-- C2 witness: the tree-mode theorem applied to the worked example. -/
theorem c2_tree_mode_siblings_sorted_witness :
    createTree 5 ctxNone ViewMode.tree demoProvider = some demoRoot ∧
      ∀ gn ∈ demoRoot.children, ∀ m, ChildListOf gn.children m →
        List.Pairwise siblingsOrdered m :=
  ⟨rfl, c2_tree_mode_siblings_sorted 5 ctxNone demoProvider demoRoot rfl⟩

/-- C2 counterexample: in `flat` mode the children are emitted in provider
order and never sorted, so a provider that hands `b.txt` before `a.txt`
yields a rebuilt tree whose siblings are not in ascending order. -/
theorem c2_flat_mode_counterexample :
    ∃ root, createTree 1 ctxNone ViewMode.flat ⟨none, [unsortedGroup]⟩ = some root ∧
      ∃ gn ∈ root.children, ¬ List.Pairwise siblingsOrdered gn.children :=
  ⟨⟨none, [⟨"g", "g", true,
    [FileChangeTreeNode.leaf "g:file:///repo/b.txt" "file:///repo/b.txt" none false,
     FileChangeTreeNode.leaf "g:file:///repo/a.txt" "file:///repo/a.txt" none false]⟩]⟩,
   rfl,
   ⟨"g", "g", true,
    [FileChangeTreeNode.leaf "g:file:///repo/b.txt" "file:///repo/b.txt" none false,
     FileChangeTreeNode.leaf "g:file:///repo/a.txt" "file:///repo/a.txt" none false]⟩,
   List.mem_cons_self _ _, by decide⟩

/-! ### C5: reconciliation of expansion and selection -/

/-- Every node reachable in a `buildLoop` output is reconciled. -/
theorem buildLoop_recon (ctx : BuildCtx) (res : List ResourcePath) (gid : String)
    (f s e level : Nat) (puri : String) (l : List FileChangeTreeNode)
    (h : buildLoop f ctx res s e level gid puri = some l) :
    ∀ n ∈ l, reconOk ctx n ∧
      ∀ m, ChildListOf (childrenOf n) m → ∀ x ∈ m, reconOk ctx x := by
  refine buildLoop_forall ctx res gid
    (fun n => reconOk ctx n ∧
      ∀ m, ChildListOf (childrenOf n) m → ∀ x ∈ m, reconOk ctx x)
    ?_ ?_ f s e level puri l h
  · intro r
    constructor
    · simp [mkFileChangeNode, reconOk]
    · intro m hm x hx
      have hm' : ChildListOf ([] : List FileChangeTreeNode) m := by
        simpa [mkFileChangeNode, childrenOf] using hm
      rw [childListOf_nil hm'] at hx
      exact absurd hx (List.not_mem_nil x)
  · intro puri' rel ch _ hall
    constructor
    · simp [mkFolderNode, reconOk]
    · intro m hm x hx
      simp only [mkFolderNode, childrenOf] at hm
      cases hm with
      | refl => exact (hall x hx).1
      | nest hmem hrest => exact (hall _ hmem).2 _ hrest x hx

/-- Group-level version: every Folder or Leaf node reachable in a rebuilt
group node carries reconciled presentation state. -/
theorem toGroupNode_recon (fuel : Nat) (ctx : BuildCtx)
    (vm : ViewMode) (rootUri : Option String) (group : ScmResourceGroup)
    (gn : FileChangeGroupNode) (h : toGroupNode fuel ctx vm rootUri group = some gn) :
    ∀ m, ChildListOf gn.children m → ∀ x ∈ m, reconOk ctx x := by
  intro m hm x hx
  cases vm with
  | flat =>
    simp only [toGroupNode] at h
    injection h with h
    subst h
    simp only [] at hm
    cases hm with
    | refl =>
      obtain ⟨r, _, rfl⟩ := List.mem_map.1 hx
      simp [mkFileChangeNode, reconOk]
    | nest hmem _ =>
      obtain ⟨r, _, hr⟩ := List.mem_map.1 hmem
      simp [mkFileChangeNode] at hr
  | tree =>
    simp only [toGroupNode] at h
    rcases rootUri with _ | root
    · simp only [] at h
      injection h with h
      subst h
      simp only [] at hm
      rw [childListOf_nil hm] at hx
      exact absurd hx (List.not_mem_nil x)
    · simp only [] at h
      by_cases hroot : root ≠ ""
      · rw [if_pos hroot] at h
        simp only [buildFileChangeTree] at h
        rcases hb : buildLoop fuel ctx
            (group.resources.map fun r => ⟨r, pathPartsOf root r⟩)
            0 group.resources.length 0 group.id root with _ | out
        · rw [hb] at h
          simp at h
        · rw [hb] at h
          simp only [Option.map_some'] at h
          injection h with h
          subst h
          simp only [] at hm
          cases hm with
          | refl =>
            exact (buildLoop_recon ctx _ group.id fuel 0 group.resources.length 0
              root out hb x (mem_sortNodes.1 hx)).1
          | nest hmem hrest =>
            exact (buildLoop_recon ctx _ group.id fuel 0 group.resources.length 0
              root out hb _ (mem_sortNodes.1 hmem)).2 m hrest x hx
      · rw [if_neg hroot] at h
        injection h with h
        subst h
        simp only [] at hm
        rw [childListOf_nil hm] at hx
        exact absurd hx (List.not_mem_nil x)

/-- C5 (corrected): in every tree rebuilt by `createTree` — in either view
mode — every Folder or Leaf node at any depth carries reconciled
presentation state: its `selected` flag (and, for folders, its `expanded`
flag) equals the previous tree's flag when a node existed under the same
identity key with the corresponding capability, and the configured default
expansion (`expanded` unless configured `collapsed`) when none did.  (Group
nodes are excluded: they are rebuilt with `expanded: true`
unconditionally.) -/
theorem c5_folder_leaf_state_reconciled (fuel : Nat) (ctx : BuildCtx)
    (vm : ViewMode) (provider : ScmProvider) (root : FileChangeGroupRoot)
    (h : createTree fuel ctx vm provider = some root) :
    ∀ gn ∈ root.children, ∀ m, ChildListOf gn.children m →
      ∀ x ∈ m, reconOk ctx x := by
  intro gn hgn m hm x hx
  simp only [createTree] at h
  rcases hc : createTreeChildren fuel ctx vm provider.rootUri
      (provider.groups.filter fun g => g.resources.length ≠ 0 || !g.hideWhenEmpty)
    with _ | gns
  · rw [hc] at h
    simp at h
  · rw [hc] at h
    simp only [Option.map_some'] at h
    injection h with h
    subst h
    simp only [] at hgn
    obtain ⟨g, _, hg⟩ := createTreeChildren_mem fuel ctx vm
      provider.rootUri _ gns hc gn hgn
    exact toGroupNode_recon fuel ctx vm provider.rootUri g gn hg m hm x hx

/-- C5 witness: the reconciliation theorem applied to the worked example. -/
theorem c5_folder_leaf_state_reconciled_witness :
    createTree 5 ctxNone ViewMode.tree demoProvider = some demoRoot ∧
      ∀ gn ∈ demoRoot.children, ∀ m, ChildListOf gn.children m →
        ∀ x ∈ m, reconOk ctxNone x :=
  ⟨rfl, c5_folder_leaf_state_reconciled 5 ctxNone ViewMode.tree demoProvider
    demoRoot rfl⟩

/-- C5 counterexample: the previous tree held the group node under the key
"g" collapsed (`expanded = false`), yet the rebuilt group node is expanded —
`toGroupNode` recreates every group with `expanded: true`, so a Group node's
expansion flag is not preserved across a rebuild. -/
theorem c5_group_expansion_not_preserved :
    (toGroupNode 1 ctxPrevGroupCollapsed ViewMode.flat none
        ⟨"g", false, []⟩).map FileChangeGroupNode.expanded = some true ∧
      (ctxPrevGroupCollapsed.getNode "g").map OldNodeInfo.expanded = some false :=
  ⟨rfl, rfl⟩

/-! ### Navigation lemmas -/

theorem moveNextGo_some : ∀ (k : Nat) (st : NavState) (j : Nat) (st' : NavState),
    moveNextGo k st = (some j, st') →
    st' = ⟨st.nodes, some j⟩ ∧ st.nodes.getD j NavKind.folder = NavKind.file := by
  intro k
  induction k with
  | zero =>
    intro st j st' h
    simp [moveNextGo] at h
  | succ k ih =>
    intro st j st' h
    simp only [moveNextGo] at h
    rcases hn : getNextSelectableNode st with _ | j0
    · rw [hn] at h
      simp at h
    · rw [hn] at h
      simp only [] at h
      by_cases hf : st.nodes.getD j0 NavKind.folder = NavKind.file
      · rw [if_pos hf] at h
        injection h with h1 h2
        injection h1 with h1
        subst h1
        exact ⟨h2.symm, hf⟩
      · rw [if_neg hf] at h
        obtain ⟨h1, h2⟩ := ih (selectNode st j0) j st' h
        exact ⟨h1, h2⟩

theorem moveNextGo_none : ∀ (k : Nat) (st : NavState) (st' : NavState),
    (∀ i, st.selected = some i → st.nodes.length ≤ i + 1 + k) →
    moveNextGo k st = (none, st') →
    ∀ i j, st.selected = some i → i < j → j < st.nodes.length →
      st.nodes.getD j NavKind.folder ≠ NavKind.file := by
  intro k
  induction k with
  | zero =>
    intro st st' hk _ i j hi hij hj
    have := hk i hi
    omega
  | succ k ih =>
    intro st st' hk h i j hi hij hj
    simp only [moveNextGo] at h
    rcases hn : getNextSelectableNode st with _ | j0
    · rw [hn] at h
      simp only [getNextSelectableNode, hi] at hn
      by_cases hlt : i + 1 < st.nodes.length
      · rw [if_pos hlt] at hn
        exact absurd hn (by simp)
      · omega
    · rw [hn] at h
      simp only [] at h
      have hj0 : j0 = i + 1 ∧ i + 1 < st.nodes.length := by
        simp only [getNextSelectableNode, hi] at hn
        by_cases hlt : i + 1 < st.nodes.length
        · rw [if_pos hlt] at hn
          injection hn with hn
          exact ⟨hn.symm, hlt⟩
        · rw [if_neg hlt] at hn
          exact absurd hn (by simp)
      obtain ⟨rfl, hlt⟩ := hj0
      by_cases hf : st.nodes.getD (i + 1) NavKind.folder = NavKind.file
      · rw [if_pos hf] at h
        simp at h
      · rw [if_neg hf] at h
        rcases Nat.eq_or_lt_of_le hij with rfl | hij'
        · exact hf
        · refine ih (selectNode st (i + 1)) st' ?_ h (i + 1) j rfl hij' hj
          intro i' hi'
          simp only [selectNode] at hi' ⊢
          injection hi' with hi'
          subst hi'
          have := hk i hi
          omega

theorem moveNextGo_noop (k : Nat) (st : NavState)
    (h : getNextSelectableNode st = none) : moveNextGo k st = (none, st) := by
  cases k with
  | zero => rfl
  | succ k =>
    simp only [moveNextGo]
    rw [h]

theorem movePrevGo_some : ∀ (k : Nat) (st : NavState) (j : Nat) (st' : NavState),
    movePrevGo k st = (some j, st') →
    st' = ⟨st.nodes, some j⟩ ∧ st.nodes.getD j NavKind.folder = NavKind.file := by
  intro k
  induction k with
  | zero =>
    intro st j st' h
    simp [movePrevGo] at h
  | succ k ih =>
    intro st j st' h
    simp only [movePrevGo] at h
    rcases hn : getPrevSelectableNode st with _ | j0
    · rw [hn] at h
      simp at h
    · rw [hn] at h
      simp only [] at h
      by_cases hf : st.nodes.getD j0 NavKind.folder = NavKind.file
      · rw [if_pos hf] at h
        injection h with h1 h2
        injection h1 with h1
        subst h1
        exact ⟨h2.symm, hf⟩
      · rw [if_neg hf] at h
        exact ih (selectNode st j0) j st' h

theorem movePrevGo_none : ∀ (k : Nat) (st : NavState) (st' : NavState),
    (∀ i, st.selected = some i → i ≤ k) →
    movePrevGo k st = (none, st') →
    ∀ i j, st.selected = some i → j < i →
      st.nodes.getD j NavKind.folder ≠ NavKind.file := by
  intro k
  induction k with
  | zero =>
    intro st st' hk _ i j hi hij
    have := hk i hi
    omega
  | succ k ih =>
    intro st st' hk h i j hi hij
    simp only [movePrevGo] at h
    rcases hn : getPrevSelectableNode st with _ | j0
    · rw [hn] at h
      simp only [getPrevSelectableNode, hi] at hn
      by_cases hz : i = 0
      · omega
      · rw [if_neg hz] at hn
        exact absurd hn (by simp)
    · rw [hn] at h
      simp only [] at h
      have hj0 : j0 = i - 1 ∧ i ≠ 0 := by
        simp only [getPrevSelectableNode, hi] at hn
        by_cases hz : i = 0
        · rw [if_pos hz] at hn
          exact absurd hn (by simp)
        · rw [if_neg hz] at hn
          injection hn with hn
          exact ⟨hn.symm, hz⟩
      obtain ⟨rfl, hz⟩ := hj0
      by_cases hf : st.nodes.getD (i - 1) NavKind.folder = NavKind.file
      · rw [if_pos hf] at h
        simp at h
      · rw [if_neg hf] at h
        rcases Nat.eq_or_lt_of_le (Nat.le_sub_one_of_lt hij) with heq | hij'
        · rw [← heq] at hf
          exact hf
        · refine ih (selectNode st (i - 1)) st' ?_ h (i - 1) j rfl (by omega)
          intro i' hi'
          simp only [selectNode] at hi'
          injection hi' with hi'
          subst hi'
          have := hk i hi
          omega

theorem movePrevGo_noop (k : Nat) (st : NavState)
    (h : getPrevSelectableNode st = none) : movePrevGo k st = (none, st) := by
  cases k with
  | zero => rfl
  | succ k =>
    simp only [movePrevGo]
    rw [h]

/-! ### C6, C7, C8, C10 -/

/-- C6 (corrected): the navigation cursor only ever returns file (Leaf)
nodes: when `moveToNextFileNode` / `moveToPreviousFileNode` returns a node,
that node is a file and it ends up selected.  When it returns nothing, no
file node exists in the requested direction and, when there is no selectable
node at all in that direction, the operation leaves the state unchanged —
but when non-file selectable nodes lie in that direction the loop selects
each of them in turn, so the final selection can be a Folder node. -/
theorem c6_cursor_returns_only_files :
    (∀ st j st', moveToNextFileNode st = (some j, st') →
      st' = ⟨st.nodes, some j⟩ ∧ st.nodes.getD j NavKind.folder = NavKind.file) ∧
    (∀ st st', moveToNextFileNode st = (none, st') →
      ∀ i j, st.selected = some i → i < j → j < st.nodes.length →
        st.nodes.getD j NavKind.folder ≠ NavKind.file) ∧
    (∀ st, getNextSelectableNode st = none → moveToNextFileNode st = (none, st)) ∧
    (∀ st j st', moveToPreviousFileNode st = (some j, st') →
      st' = ⟨st.nodes, some j⟩ ∧ st.nodes.getD j NavKind.folder = NavKind.file) ∧
    (∀ st st', moveToPreviousFileNode st = (none, st') →
      ∀ i j, st.selected = some i → i < st.nodes.length → j < i →
        st.nodes.getD j NavKind.folder ≠ NavKind.file) ∧
    (∀ st, getPrevSelectableNode st = none → moveToPreviousFileNode st = (none, st)) := by
  refine ⟨?_, ?_, ?_, ?_, ?_, ?_⟩
  · intro st j st' h
    exact moveNextGo_some st.nodes.length st j st' h
  · intro st st' h i j hi hij hj
    exact moveNextGo_none st.nodes.length st st' (by intro i' _; omega) h i j hi hij hj
  · intro st h
    exact moveNextGo_noop st.nodes.length st h
  · intro st j st' h
    exact movePrevGo_some st.nodes.length st j st' h
  · intro st st' h i j hi hilen hij
    refine movePrevGo_none st.nodes.length st st' ?_ h i j hi hij
    intro i' hi'
    rw [hi] at hi'
    injection hi' with hi'
    omega
  · intro st h
    exact movePrevGo_noop st.nodes.length st h

/-- C6 witness: stepping forward from a selected file with another file after
it returns and selects that file. -/
theorem c6_cursor_returns_only_files_witness :
    moveToNextFileNode ⟨[NavKind.file, NavKind.file], some 0⟩ =
        (some 1, ⟨[NavKind.file, NavKind.file], some 1⟩) ∧
      (⟨[NavKind.file, NavKind.file], some 1⟩ : NavState) =
          ⟨[NavKind.file, NavKind.file], some 1⟩ ∧
        [NavKind.file, NavKind.file].getD 1 NavKind.folder = NavKind.file :=
  ⟨rfl, c6_cursor_returns_only_files.1 ⟨[NavKind.file, NavKind.file], some 0⟩ 1
    ⟨[NavKind.file, NavKind.file], some 1⟩ rfl⟩

/-- C6 counterexample: from a selected file followed only by a (collapsed)
folder, `moveToNextFileNode` finds no file, yet it selects the folder on the
way: the operation is not a no-op and it leaves a Folder node selected,
contradicting the claim. -/
theorem c6_trailing_folder_selected :
    moveToNextFileNode ⟨[NavKind.file, NavKind.folder], some 0⟩ =
        (none, ⟨[NavKind.file, NavKind.folder], some 1⟩) ∧
      [NavKind.file, NavKind.folder].getD 1 NavKind.folder = NavKind.folder :=
  ⟨rfl, rfl⟩

/-- C7 (confirmed): when a resource's `open()` rejects, the failure is caught
inside `openResource`: no editor handle is returned and the navigation /
selection state passes through unchanged — the rejection does not escape to
the caller or the tree-building pipeline. -/
theorem c7_open_failure_caught :
    ∀ (uri path msg : String) (editors : List EditorWidgetM) (st : NavState),
      openResourceSt st ⟨uri, path, Except.error msg⟩ editors = (none, st) := by
  intro uri path msg editors st
  rfl

/-- C8 (confirmed): `restoreState` sets the view mode to `tree` exactly when
the persisted `mode` equals `"tree"` and to `flat` for every other value
(including a missing one), and `storeState` immediately followed by
`restoreState` reproduces the view mode. -/
theorem c8_restore_mode_roundtrip :
    (∀ mode : Option String,
      restoredViewMode mode = ViewMode.tree ↔ mode = some "tree") ∧
    (∀ (vm : ViewMode) (τ : Type) (st : τ),
      restoredViewMode (storeState vm st).mode = vm) := by
  constructor
  · intro mode
    unfold restoredViewMode
    by_cases h : mode = some "tree"
    · simp [h]
    · simp [h]
  · intro vm τ st
    cases vm <;> rfl

/-- C10 (confirmed): in `tree` mode a group under a provider without a
`rootUri` gets no children at all — every resource of the group is omitted —
while the same group in `flat` mode yields one leaf per resource. -/
theorem c10_tree_mode_without_rooturi_empty :
    ∀ (fuel : Nat) (ctx : BuildCtx) (group : ScmResourceGroup),
      (toGroupNode fuel ctx ViewMode.tree none group).map
          FileChangeGroupNode.children = some [] ∧
        (toGroupNode fuel ctx ViewMode.flat none group).map
          (fun gn => gn.children.length) = some group.resources.length := by
  intro fuel ctx group
  constructor
  · rfl
  · simp [toGroupNode]

/-! ### C3 and C4: run formation, threshold, and the greedy folder boundary -/

/-- C3 (corrected): how one iteration of `buildFileChangeTree` consumes the
range.  A resource whose segment sequence ends at the current level is
emitted as a single leaf.  Otherwise the maximal contiguous run sharing
segment `[level]` with the first resource is found (`s < folderEnd ≤ e`, all
run members share the segment, and the first index past the run — when it is
in range — does not); a run shorter than the nesting threshold is inlined as
one leaf per run member with no folder, and a run at or above the threshold
produces exactly one folder wrapping the whole run.  In particular, with
threshold 2 a single resource at `a/x.txt` is built as one leaf with no
folder. -/
theorem c3_run_threshold_behaviour :
    (∀ (f : Nat) (ctx : BuildCtx) (res : List ResourcePath) (s e level : Nat)
      (gid puri : String), s < e →
      level + 1 = (getRes res s).pathParts.length →
      buildLoop (f + 1) ctx res s e level gid puri =
        (buildLoop f ctx res (s + 1) e level gid puri).map
          (fun rest => mkFileChangeNode ctx (getRes res s).resource :: rest)) ∧
    (∀ (f : Nat) (ctx : BuildCtx) (res : List ResourcePath) (s e level : Nat)
      (gid puri : String), s < e →
      ¬ level + 1 = (getRes res s).pathParts.length →
      (s < fEnd res s e level ∧ fEnd res s e level ≤ e) ∧
      (∀ k, s ≤ k → k < fEnd res s e level →
        (getRes res k).pathParts.get? level = (getRes res s).pathParts.get? level) ∧
      (fEnd res s e level < e →
        ¬ (getRes res (fEnd res s e level)).pathParts.get? level =
          (getRes res s).pathParts.get? level) ∧
      (fEnd res s e level - s < nestingThresholdOf ctx.props →
        buildLoop (f + 1) ctx res s e level gid puri =
          (buildLoop f ctx res (fEnd res s e level) e level gid puri).map
            (fun rest => leavesOfRange ctx res s (fEnd res s e level - s) ++ rest)) ∧
      (¬ fEnd res s e level - s < nestingThresholdOf ctx.props →
        buildLoop (f + 1) ctx res s e level gid puri =
          match buildLoop f ctx res s (fEnd res s e level) (tLevel res s e level) gid
              (uriResolve puri (relOf res s e level)) with
          | none => none
          | some ch =>
            match buildLoop f ctx res (fEnd res s e level) e level gid puri with
            | none => none
            | some rest =>
              some (mkFolderNode ctx gid puri (relOf res s e level)
                (sortNodes ch) :: rest))) ∧
    toGroupNode 5 ctxT2 ViewMode.tree (some "file:///repo") axOnlyGroup =
      some ⟨"g", "g", true,
        [FileChangeTreeNode.leaf "g:file:///repo/a/x.txt" "file:///repo/a/x.txt"
          none false]⟩ := by
  refine ⟨?_, ?_, rfl⟩
  · intro f ctx res s e level gid puri h1 h2
    exact buildLoop_leaf_step f ctx res s e level gid puri h1 h2
  · intro f ctx res s e level gid puri h1 h2
    refine ⟨⟨?_, ?_⟩, ?_, ?_, ?_, ?_⟩
    · exact lt_of_lt_of_le (Nat.lt_succ_self s)
        (runEnd_ge res level ((getRes res s).pathParts.get? level) (s + 1) e)
    · exact runEnd_le res level ((getRes res s).pathParts.get? level) (s + 1) e h1
    · intro k hk hk2
      rcases Nat.eq_or_lt_of_le hk with rfl | hk'
      · rfl
      · exact runEnd_mem res level ((getRes res s).pathParts.get? level) (s + 1) e
          k hk' hk2
    · intro hlt
      exact runEnd_stop res level ((getRes res s).pathParts.get? level) (s + 1) e hlt
    · intro h3
      exact buildLoop_inline_step f ctx res s e level gid puri h1 h2 h3
    · intro h3
      exact buildLoop_folder_step f ctx res s e level gid puri h1 h2 h3

/-- C3 witness: the below-threshold branch applied to the worked example
with threshold 2: the single-resource run at `a/` is inlined as a leaf. -/
theorem c3_run_threshold_behaviour_witness :
    (0 < 1) ∧ (¬ 0 + 1 = (getRes [(⟨rAX, ["a", "x.txt"]⟩ : ResourcePath)] 0).pathParts.length) ∧
      (fEnd [(⟨rAX, ["a", "x.txt"]⟩ : ResourcePath)] 0 1 0 - 0 <
        nestingThresholdOf ctxT2.props) ∧
      buildLoop 2 ctxT2 [(⟨rAX, ["a", "x.txt"]⟩ : ResourcePath)] 0 1 0 "g" "file:///repo" =
        (buildLoop 1 ctxT2 [(⟨rAX, ["a", "x.txt"]⟩ : ResourcePath)]
            (fEnd [(⟨rAX, ["a", "x.txt"]⟩ : ResourcePath)] 0 1 0) 1 0 "g" "file:///repo").map
          (fun rest => leavesOfRange ctxT2 [(⟨rAX, ["a", "x.txt"]⟩ : ResourcePath)] 0
            (fEnd [(⟨rAX, ["a", "x.txt"]⟩ : ResourcePath)] 0 1 0 - 0) ++ rest) :=
  ⟨by decide, by decide, by decide,
    ((c3_run_threshold_behaviour.2.1 1 ctxT2 [(⟨rAX, ["a", "x.txt"]⟩ : ResourcePath)]
      0 1 0 "g" "file:///repo" (by decide) (by decide)).2.2.2.1 (by decide))⟩

/-- C3 counterexample: with the default threshold 1, the single top-level
resource `x.txt` forms a maximal run of length 1 ≥ threshold at level 0, yet
the tree contains no FolderNode at all — the resource's segment sequence
ends at the current level, so it is emitted as a leaf before run promotion
is ever considered. -/
theorem c3_filename_run_not_promoted :
    toGroupNode 3 ctxNone ViewMode.tree (some "file:///repo") xOnlyGroup =
        some ⟨"g", "g", true,
          [FileChangeTreeNode.leaf "g:file:///repo/x.txt" "file:///repo/x.txt"
            none false]⟩ ∧
      ¬ 1 < nestingThresholdOf ctxNone.props ∧
      (FileChangeTreeNode.leaf "g:file:///repo/x.txt" "file:///repo/x.txt"
        none false).isFolder = false :=
  ⟨rfl, by decide, rfl⟩

/-- C4 (confirmed): when a run is promoted, `thisLevel` starts at
`level + 1` and is extended greedily: the guard (both the first and the last
resource of the run keep a segment strictly before their filename position
and agree on segment `[j]`) holds at every position below `thisLevel`, fails
at `thisLevel` itself, and `thisLevel` is the greatest such level; the
emitted folder wraps the entire run `[s, folderEnd)` in a single node whose
displayed relative path joins the first resource's segments
`[level, thisLevel)` with `/`, and the loop continues at `folderEnd` — the
run is never split. -/
theorem c4_folder_boundary_greedy (f : Nat) (ctx : BuildCtx)
    (res : List ResourcePath) (s e level : Nat) (gid puri : String)
    (h1 : s < e) (h2 : ¬ level + 1 = (getRes res s).pathParts.length)
    (h3 : ¬ fEnd res s e level - s < nestingThresholdOf ctx.props) :
    (buildLoop (f + 1) ctx res s e level gid puri =
      match buildLoop f ctx res s (fEnd res s e level) (tLevel res s e level) gid
          (uriResolve puri (relOf res s e level)) with
      | none => none
      | some ch =>
        match buildLoop f ctx res (fEnd res s e level) e level gid puri with
        | none => none
        | some rest =>
          some (mkFolderNode ctx gid puri (relOf res s e level)
            (sortNodes ch) :: rest)) ∧
    level + 1 ≤ tLevel res s e level ∧
    (∀ j, level + 1 ≤ j → j < tLevel res s e level →
      extendGuard (getRes res s).pathParts
        (getRes res (fEnd res s e level - 1)).pathParts j) ∧
    ¬ extendGuard (getRes res s).pathParts
      (getRes res (fEnd res s e level - 1)).pathParts (tLevel res s e level) ∧
    (∀ m, level + 1 ≤ m →
      (∀ j, level + 1 ≤ j → j < m →
        extendGuard (getRes res s).pathParts
          (getRes res (fEnd res s e level - 1)).pathParts j) →
      m ≤ tLevel res s e level) ∧
    (∀ ch, (mkFolderNode ctx gid puri (relOf res s e level) ch).relPath =
      String.intercalate "/"
        (((getRes res s).pathParts.drop level).take (tLevel res s e level - level))) := by
  refine ⟨buildLoop_folder_step f ctx res s e level gid puri h1 h2 h3,
    ?_, ?_, ?_, ?_, ?_⟩
  · exact extendLevel_ge _ _ _
  · exact extendLevel_agrees _ _ _
  · exact extendLevel_stop _ _ _
  · exact extendLevel_greatest _ _ _
  · intro ch
    rfl

/-- C4 witness: the promoted run of the worked example (`a/x.txt`,
`a/y.txt`, `b.txt` at level 0) has its boundary at level 1. -/
theorem c4_folder_boundary_greedy_witness :
    (0 < 3) ∧ (¬ 0 + 1 = (getRes demoRes 0).pathParts.length) ∧
      (¬ fEnd demoRes 0 3 0 - 0 < nestingThresholdOf ctxNone.props) ∧
      0 + 1 ≤ tLevel demoRes 0 3 0 :=
  ⟨by decide, by decide, by decide,
    (c4_folder_boundary_greedy 4 ctxNone demoRes 0 3 0 "g" "file:///repo"
      (by decide) (by decide) (by decide)).2.1⟩

/-! ### C9: termination of the tree build -/

theorem strKey_inj {a b : String} (h : strKey a = strKey b) : a = b := by
  have hchar : Function.Injective Char.toNat := by
    intro c d hcd
    rw [← Char.ofNat_toNat c, hcd, Char.ofNat_toNat]
  have hdata : a.data = b.data := List.map_injective_iff.2 hchar h
  cases a
  cases b
  exact congrArg String.mk hdata

theorem strLtB_asymm {a b : String} (h : strLtB a b = true) :
    strLtB b a = false := by
  unfold strLtB at h ⊢
  rw [cmpNatList_swap (strKey a) (strKey b)] at *
  rcases hc : cmpNatList (strKey a) (strKey b) with _ | _ | _ <;>
    rw [hc] at h <;> simp [Ordering.swap] at h ⊢

theorem strLtB_both_false_eq {a b : String} (h1 : strLtB a b = false)
    (h2 : strLtB b a = false) : a = b := by
  unfold strLtB at h1 h2
  rw [cmpNatList_swap (strKey a) (strKey b)] at h2
  rcases hc : cmpNatList (strKey a) (strKey b) with _ | _ | _ <;>
    rw [hc] at h1 h2 <;> simp [Ordering.swap] at h1 h2
  exact strKey_inj ((cmpNatList_eq_iff _ _).1 hc)

theorem strLtB_irrefl (a : String) : strLtB a a = false := by
  unfold strLtB
  rw [(cmpNatList_eq_iff (strKey a) (strKey a)).2 rfl]

/-- If `b` is a strict prefix of `a`, then `a` does not sort at or before
`b`. -/
theorem partsLE_prefix_false : ∀ (b a : List String),
    b.length < a.length → (∀ j, j < b.length → a.get? j = b.get? j) →
    partsLE a b = false := by
  intro b
  induction b with
  | nil =>
    intro a hlen _
    cases a with
    | nil => simp at hlen
    | cons x xs => rfl
  | cons y ys ih =>
    intro a hlen hpre
    cases a with
    | nil => simp at hlen
    | cons x xs =>
      have hx : x = y := by
        have := hpre 0 (by simp)
        simpa using this
      subst hx
      simp only [partsLE, strLtB_irrefl, Bool.false_eq_true, if_false]
      exact ih xs (by simpa using hlen)
        (fun j hj => by simpa using hpre (j + 1) (by simpa using hj))

/-- The sandwich lemma: if `a ≤ m ≤ b` lexicographically, `a` and `b` agree
on their first `L` segments and both have more than `L` segments, then `m`
also has more than `L` segments and agrees with `a` on them. -/
theorem partsLE_sandwich : ∀ (L : Nat) (a m b : List String),
    partsLE a m = true → partsLE m b = true →
    (∀ j, j < L → a.get? j = b.get? j) → L < a.length → L < b.length →
    L < m.length ∧ ∀ j, j < L → m.get? j = a.get? j := by
  intro L
  induction L with
  | zero =>
    intro a m b ham hmb _ hla _
    cases a with
    | nil => simp at hla
    | cons x xs =>
      cases m with
      | nil => simp [partsLE] at ham
      | cons z ms => exact ⟨by simp, fun j hj => by omega⟩
  | succ L ih =>
    intro a m b ham hmb hab hla hlb
    cases a with
    | nil => simp at hla
    | cons x xs =>
      cases b with
      | nil => simp at hlb
      | cons y ys =>
        have hxy : x = y := by
          have := hab 0 (by omega)
          simpa using this
        subst hxy
        cases m with
        | nil => simp [partsLE] at ham
        | cons z ms =>
          have hxz : x = z := by
            by_cases h1 : strLtB x z = true
            · by_cases h2 : strLtB z x = true
              · have := strLtB_asymm h1
                rw [this] at h2
                exact absurd h2 (by simp)
              · simp only [partsLE] at hmb
                rw [if_neg (by simpa using h2), if_pos h1] at hmb
                exact absurd hmb (by simp)
            · by_cases h2 : strLtB z x = true
              · simp only [partsLE] at ham
                rw [if_neg (by simpa using h1), if_pos h2] at ham
                exact absurd ham (by simp)
              · exact strLtB_both_false_eq (by simpa using h1)
                  (by simpa using h2)
          subst hxz
          simp only [partsLE, strLtB_irrefl, Bool.false_eq_true, if_false] at ham hmb
          obtain ⟨hlen, hagree⟩ := ih xs ms ys ham hmb
            (fun j hj => by simpa using hab (j + 1) (by omega))
            (by simpa using hla) (by simpa using hlb)
          constructor
          · simpa using hlen
          · intro j hj
            cases j with
            | zero => rfl
            | succ j => simpa using hagree j (by omega)

theorem maxLenOf_ge (res : List ResourcePath) :
    ∀ i, (getRes res i).pathParts.length ≤ maxLenOf res := by
  induction res with
  | nil =>
    intro i
    simp [getRes, maxLenOf, List.getD]
  | cons r rs ih =>
    intro i
    cases i with
    | zero =>
      simp only [getRes, maxLenOf, List.getD_cons_zero, List.foldr_cons]
      exact Nat.le_max_left _ _
    | succ i =>
      have h := ih i
      simp only [getRes, maxLenOf, List.getD_cons_succ, List.foldr_cons]
      simp only [getRes, maxLenOf] at h
      exact le_trans h (Nat.le_max_right _ _)

theorem buildPre_mono {res : List ResourcePath} {s e level : Nat}
    (h : BuildPre res s e level) {s' e' : Nat} (hs : s ≤ s') (he : e' ≤ e) :
    BuildPre res s' e' level := by
  obtain ⟨h1, h2, h3⟩ := h
  refine ⟨?_, ?_, ?_⟩
  · intro i hi hi2
    exact h1 i (by omega) (by omega)
  · intro i j hi hij hj
    exact h2 i j (by omega) hij (by omega)
  · intro i j k hi hi2 hj hj2 hk
    exact h3 i j k (by omega) (by omega) (by omega) (by omega) hk

/-- Promoting a run preserves the precondition: on a sorted range, every
member of the run `[s, folderEnd)` has more than `thisLevel` segments and
agrees with the first member on the first `thisLevel` segments. -/
theorem buildPre_child (res : List ResourcePath) (s e level : Nat)
    (h1 : s < e) (h2 : ¬ level + 1 = (getRes res s).pathParts.length)
    (hpre : BuildPre res s e level) :
    BuildPre res s (fEnd res s e level) (tLevel res s e level) ∧
      level + 1 ≤ tLevel res s e level ∧
      s < fEnd res s e level ∧ fEnd res s e level ≤ e := by
  obtain ⟨hlen, hsort, hcp⟩ := hpre
  have hfd : fEnd res s e level =
      runEnd res level ((getRes res s).pathParts.get? level) (s + 1) e := rfl
  have htd : extendLevel (getRes res s).pathParts
      (getRes res (fEnd res s e level - 1)).pathParts (level + 1) =
      tLevel res s e level := rfl
  have hfge : s + 1 ≤ fEnd res s e level := by
    rw [hfd]
    exact runEnd_ge res level ((getRes res s).pathParts.get? level) (s + 1) e
  have hfle : fEnd res s e level ≤ e := by
    rw [hfd]
    exact runEnd_le res level ((getRes res s).pathParts.get? level) (s + 1) e h1
  have hEnd1lt : fEnd res s e level - 1 < e := by omega
  have hsEnd1 : s ≤ fEnd res s e level - 1 := by omega
  have htge : level + 1 ≤ tLevel res s e level := by
    rw [← htd]
    exact extendLevel_ge _ _ _
  have hab : ∀ k, k < tLevel res s e level →
      (getRes res s).pathParts.get? k =
        (getRes res (fEnd res s e level - 1)).pathParts.get? k := by
    intro k hk
    rcases lt_trichotomy k level with hkl | hkeq | hkg
    · exact hcp s (fEnd res s e level - 1) k (le_refl s) h1 hsEnd1 hEnd1lt hkl
    · rw [hkeq]
      by_cases hfs : fEnd res s e level - 1 = s
      · rw [hfs]
      · refine (runEnd_mem res level ((getRes res s).pathParts.get? level) (s + 1) e
          (fEnd res s e level - 1) (by omega) ?_).symm
        rw [← hfd]
        omega
    · have hg := extendLevel_agrees (getRes res s).pathParts
        (getRes res (fEnd res s e level - 1)).pathParts (level + 1) k
        (by omega) (by rw [htd]; exact hk)
      exact hg.2.2
  have hta : tLevel res s e level < (getRes res s).pathParts.length := by
    rcases Nat.eq_or_lt_of_le htge with heq | hgt
    · have := hlen s (le_refl s) h1
      omega
    · have hg := extendLevel_agrees (getRes res s).pathParts
        (getRes res (fEnd res s e level - 1)).pathParts (level + 1)
        (tLevel res s e level - 1) (by omega) (by rw [htd]; omega)
      have hg1 := hg.1
      omega
  have htb : tLevel res s e level <
      (getRes res (fEnd res s e level - 1)).pathParts.length := by
    rcases Nat.eq_or_lt_of_le htge with heq | hgt
    · have hbl := hlen (fEnd res s e level - 1) hsEnd1 hEnd1lt
      by_contra hle
      push_neg at hle
      have hfalse := partsLE_prefix_false
        (getRes res (fEnd res s e level - 1)).pathParts
        (getRes res s).pathParts (by omega)
        (fun j hj => (hab j (by omega)))
      have htrue := hsort s (fEnd res s e level - 1) (le_refl s) hsEnd1 hEnd1lt
      rw [htrue] at hfalse
      exact absurd hfalse (by simp)
    · have hg := extendLevel_agrees (getRes res s).pathParts
        (getRes res (fEnd res s e level - 1)).pathParts (level + 1)
        (tLevel res s e level - 1) (by omega) (by rw [htd]; omega)
      have hg2 := hg.2.1
      omega
  have hmem : ∀ i, s ≤ i → i < fEnd res s e level →
      tLevel res s e level < (getRes res i).pathParts.length ∧
      ∀ k, k < tLevel res s e level →
        (getRes res i).pathParts.get? k = (getRes res s).pathParts.get? k := by
    intro i his hif
    have ham := hsort s i (le_refl s) his (by omega)
    have hmb := hsort i (fEnd res s e level - 1) his (by omega) hEnd1lt
    exact partsLE_sandwich (tLevel res s e level) (getRes res s).pathParts
      (getRes res i).pathParts (getRes res (fEnd res s e level - 1)).pathParts
      ham hmb hab hta htb
  refine ⟨⟨?_, ?_, ?_⟩, htge, by omega, hfle⟩
  · intro i his hif
    exact (hmem i his hif).1
  · intro i j his hij hjf
    exact hsort i j his hij (by omega)
  · intro i j k his hif hjs hjf hk
    rw [(hmem i his hif).2 k hk, (hmem j hjs hjf).2 k hk]

/-- On a range satisfying `BuildPre`, some amount of fuel makes the build
loop succeed. -/
theorem buildLoop_ex_some : ∀ (d : Nat) (ctx : BuildCtx) (res : List ResourcePath)
    (gid : String) (n s e level : Nat) (puri : String),
    maxLenOf res - level ≤ d → e - s ≤ n → BuildPre res s e level →
    ∃ f l, buildLoop f ctx res s e level gid puri = some l := by
  intro d
  induction d with
  | zero =>
    intro ctx res gid n s e level puri hd hn hpre
    by_cases hse : s < e
    · exfalso
      have ha := hpre.1 s (le_refl s) hse
      have hb := maxLenOf_ge res s
      omega
    · exact ⟨1, [], buildLoop_base 0 ctx res s e level gid puri hse⟩
  | succ d ihd =>
    intro ctx res gid n
    induction n with
    | zero =>
      intro s e level puri hd hn hpre
      have hse : ¬ s < e := by omega
      exact ⟨1, [], buildLoop_base 0 ctx res s e level gid puri hse⟩
    | succ n ihn =>
      intro s e level puri hd hn hpre
      by_cases hse : s < e
      · by_cases hlv : level + 1 = (getRes res s).pathParts.length
        · obtain ⟨f1, rest, hrest⟩ := ihn (s + 1) e level puri hd (by omega)
            (buildPre_mono hpre (by omega) (le_refl e))
          refine ⟨f1 + 1, mkFileChangeNode ctx (getRes res s).resource :: rest, ?_⟩
          rw [buildLoop_leaf_step f1 ctx res s e level gid puri hse hlv, hrest]
          rfl
        · have hfd : fEnd res s e level =
              runEnd res level ((getRes res s).pathParts.get? level) (s + 1) e := rfl
          have hfge : s + 1 ≤ fEnd res s e level := by
            rw [hfd]
            exact runEnd_ge res level ((getRes res s).pathParts.get? level) (s + 1) e
          have hfle : fEnd res s e level ≤ e := by
            rw [hfd]
            exact runEnd_le res level ((getRes res s).pathParts.get? level) (s + 1) e hse
          by_cases hth : fEnd res s e level - s < nestingThresholdOf ctx.props
          · obtain ⟨f1, rest, hrest⟩ := ihn (fEnd res s e level) e level puri hd
              (by omega) (buildPre_mono hpre (by omega) (le_refl e))
            refine ⟨f1 + 1,
              leavesOfRange ctx res s (fEnd res s e level - s) ++ rest, ?_⟩
            rw [buildLoop_inline_step f1 ctx res s e level gid puri hse hlv hth, hrest]
            rfl
          · obtain ⟨hpre', htge, hflt, hfle'⟩ := buildPre_child res s e level hse hlv hpre
            have hd' : maxLenOf res - tLevel res s e level ≤ d := by
              have ha := hpre.1 s (le_refl s) hse
              have hb := maxLenOf_ge res s
              omega
            obtain ⟨f1, ch, hch⟩ := ihd ctx res gid (fEnd res s e level - s) s
              (fEnd res s e level) (tLevel res s e level)
              (uriResolve puri (relOf res s e level)) hd' (le_refl _) hpre'
            obtain ⟨f2, rest, hrest⟩ := ihn (fEnd res s e level) e level puri hd
              (by omega) (buildPre_mono hpre (by omega) (le_refl e))
            refine ⟨max f1 f2 + 1, mkFolderNode ctx gid puri (relOf res s e level)
              (sortNodes ch) :: rest, ?_⟩
            rw [buildLoop_folder_step (max f1 f2) ctx res s e level gid puri hse hlv hth]
            rw [buildLoop_mono f1 (max f1 f2) ctx res s (fEnd res s e level)
              (tLevel res s e level) gid (uriResolve puri (relOf res s e level)) ch
              (le_max_left f1 f2) hch]
            rw [buildLoop_mono f2 (max f1 f2) ctx res (fEnd res s e level) e level
              gid puri rest (le_max_right f1 f2) hrest]
      · exact ⟨1, [], buildLoop_base 0 ctx res s e level gid puri hse⟩

/-- C9 (corrected): for every index range of in-range resources that is
pre-sorted by `partsLE` (lexicographic on the segment sequences, a strict
prefix first), in which every resource has more than `level` segments and
all resources agree on their first `level` segments (at the top call,
`level = 0`, this is: sorted with nonempty `pathParts`), some fuel makes
`buildFileChangeTree` terminate with a result. -/
theorem c9_sorted_input_terminates (ctx : BuildCtx) (res : List ResourcePath)
    (s e level : Nat) (gid puri : String)
    (hlen : ∀ i, s ≤ i → i < e → level < (getRes res i).pathParts.length)
    (hsort : ∀ i j, s ≤ i → i ≤ j → j < e →
      partsLE (getRes res i).pathParts (getRes res j).pathParts = true)
    (hcp : ∀ i j k, s ≤ i → i < e → s ≤ j → j < e → k < level →
      (getRes res i).pathParts.get? k = (getRes res j).pathParts.get? k) :
    ∃ f l, buildFileChangeTree f ctx res s e level gid puri = some l := by
  obtain ⟨f, l, h⟩ := buildLoop_ex_some (maxLenOf res) ctx res gid (e - s) s e
    level puri (by omega) (le_refl _) ⟨hlen, hsort, hcp⟩
  refine ⟨f, sortNodes l, ?_⟩
  unfold buildFileChangeTree
  rw [h]
  rfl

/-- C9 witness: the sorted worked example terminates. -/
theorem c9_sorted_input_terminates_witness :
    (∀ i, 0 ≤ i → i < 3 → 0 < (getRes demoRes i).pathParts.length) ∧
      (∀ i j, 0 ≤ i → i ≤ j → j < 3 →
        partsLE (getRes demoRes i).pathParts (getRes demoRes j).pathParts = true) ∧
      (∀ i j k, 0 ≤ i → i < 3 → 0 ≤ j → j < 3 → k < 0 →
        (getRes demoRes i).pathParts.get? k = (getRes demoRes j).pathParts.get? k) ∧
      ∃ f l, buildFileChangeTree f ctxNone demoRes 0 3 0 "g" "file:///repo" = some l := by
  have hlen : ∀ i, 0 ≤ i → i < 3 → 0 < (getRes demoRes i).pathParts.length := by
    intro i _ hi
    interval_cases i <;> decide
  have hsort : ∀ i j, 0 ≤ i → i ≤ j → j < 3 →
      partsLE (getRes demoRes i).pathParts (getRes demoRes j).pathParts = true := by
    intro i j _ hij hj
    interval_cases j <;> interval_cases i <;> decide
  have hcp : ∀ i j k, 0 ≤ i → i < 3 → 0 ≤ j → j < 3 → k < 0 →
      (getRes demoRes i).pathParts.get? k = (getRes demoRes j).pathParts.get? k := by
    intro i j k _ _ _ _ hk
    exact absurd hk (Nat.not_lt_zero k)
  exact ⟨hlen, hsort, hcp,
    c9_sorted_input_terminates ctxNone demoRes 0 3 0 "g" "file:///repo" hlen hsort hcp⟩

theorem badRes_loop_12 : ∀ (f : Nat) (L : Nat) (puri : String), 2 ≤ L →
    buildLoop f ctxNone badRes 1 2 L "g" puri = none := by
  intro f
  induction f with
  | zero => intro L puri _; rfl
  | succ f ih =>
    intro L puri hL
    have h2 : ¬ L + 1 = (getRes badRes 1).pathParts.length := by
      have hx : (getRes badRes 1).pathParts.length = 1 := rfl
      omega
    have hfe : fEnd badRes 1 2 L = 2 := rfl
    have h3 : ¬ fEnd badRes 1 2 L - 1 < nestingThresholdOf ctxNone.props := by
      rw [hfe]
      decide
    rw [buildLoop_folder_step f ctxNone badRes 1 2 L "g" puri (by omega) h2 h3]
    have htge : 2 ≤ tLevel badRes 1 2 L := by
      have htd : extendLevel (getRes badRes 1).pathParts
          (getRes badRes (fEnd badRes 1 2 L - 1)).pathParts (L + 1) =
          tLevel badRes 1 2 L := rfl
      have hge := extendLevel_ge (getRes badRes 1).pathParts
        (getRes badRes (fEnd badRes 1 2 L - 1)).pathParts (L + 1)
      rw [htd] at hge
      omega
    rw [hfe]
    rw [ih (tLevel badRes 1 2 L) (uriResolve puri (relOf badRes 1 2 L)) htge]

theorem badRes_loop_13 : ∀ (f : Nat) (puri : String),
    buildLoop f ctxNone badRes 1 3 2 "g" puri = none := by
  intro f
  induction f with
  | zero => intro puri; rfl
  | succ f ih =>
    intro puri
    have hfe : fEnd badRes 1 3 2 = 2 := rfl
    have hte : tLevel badRes 1 3 2 = 3 := rfl
    rw [buildLoop_folder_step f ctxNone badRes 1 3 2 "g" puri (by omega)
      (by decide) (by rw [hfe]; decide)]
    rw [hfe, hte]
    rw [badRes_loop_12 f 3 (uriResolve puri (relOf badRes 1 3 2)) (by omega)]

theorem badRes_loop_03 : ∀ (f : Nat) (puri : String),
    buildLoop f ctxNone badRes 0 3 2 "g" puri = none := by
  intro f
  induction f with
  | zero => intro puri; rfl
  | succ f ih =>
    intro puri
    rw [buildLoop_leaf_step f ctxNone badRes 0 3 2 "g" puri (by omega) (by decide)]
    rw [badRes_loop_13 f puri]
    rfl

theorem badRes_loop_main : ∀ (f : Nat) (puri : String),
    buildLoop f ctxNone badRes 0 3 0 "g" puri = none := by
  intro f
  induction f with
  | zero => intro puri; rfl
  | succ f ih =>
    intro puri
    have hfe : fEnd badRes 0 3 0 = 3 := rfl
    have hte : tLevel badRes 0 3 0 = 2 := rfl
    rw [buildLoop_folder_step f ctxNone badRes 0 3 0 "g" puri (by omega)
      (by decide) (by rw [hfe]; decide)]
    rw [hfe, hte]
    rw [badRes_loop_03 f (uriResolve puri (relOf badRes 0 3 0))]

/-- C9 counterexample: every `pathParts` of `badRes` is nonempty, yet no
amount of fuel makes the build of the (unsorted) range `[0, 3)` at level 0
succeed — the recursion diverges, so nonempty `pathParts` alone does not
guarantee termination. -/
theorem c9_nonempty_parts_insufficient :
    (∀ rp ∈ badRes, rp.pathParts ≠ []) ∧
      ¬ ∃ f l, buildFileChangeTree f ctxNone badRes 0 3 0 "g" "file:///r" = some l := by
  constructor
  · decide
  · rintro ⟨f, l, h⟩
    unfold buildFileChangeTree at h
    rw [badRes_loop_main f "file:///r"] at h
    simp at h

end ScmTree
